import Mathlib

/-!
Verification of the BajOCR document fingerprinting, metadata-extraction and
grouping engine.  The definitions below are a shallow embedding of the pure
heuristics of `bajocr/core.py`, `bajocr/utils.py` and `bajocr/constants.py`:

* text normalisation (`_normalize_key`), filename sanitisation
  (`sanitize_filename`), unique-path resolution (`ensure_unique_path`);
* the natural sort key and the in-bucket page ordering of
  `BajOCR.group_folder_to_documents`;
* the average-hash Hamming distance (`hamming`) and the hybrid bucketing
  loop of `BajOCR.group_folder_to_documents`;
* the date extraction pipeline (`DATE_PATTERNS`, `extract_date_enhanced`)
  together with the trigger condition of `extract_date_with_targeted_ocr`;
* the document-type classifier (`detect_doc_type_worker`) and the
  page-number extractors.

Python strings are modelled as `String` or `List Char`; Python `int` as
`Int` (or `Nat` where the source value is a digit string); `None` as
`Option.none`.  The Python `str.lower` function is modelled for the ASCII range plus
the Slovenian diacritics that occur in this code base.
-/

/-- Whitespace for Python `\s`, `str.split()` and `str.strip()`:
space, tab, newline, carriage return, vertical tab, form feed. -/
def isSpaceChar (c : Char) : Bool :=
  c = ' ' || c = '\t' || c = '\n' || c = '\r' || c = '\x0b' || c = '\x0c'

/-- Upper-to-lower table modelling Python `str.lower()` on the alphabet used
by this code base (ASCII letters and the Slovenian diacritics). -/
def LOWER_MAP : List (Char × Char) :=
  [('A', 'a'), ('B', 'b'), ('C', 'c'), ('D', 'd'), ('E', 'e'), ('F', 'f'),
   ('G', 'g'), ('H', 'h'), ('I', 'i'), ('J', 'j'), ('K', 'k'), ('L', 'l'),
   ('M', 'm'), ('N', 'n'), ('O', 'o'), ('P', 'p'), ('Q', 'q'), ('R', 'r'),
   ('S', 's'), ('T', 't'), ('U', 'u'), ('V', 'v'), ('W', 'w'), ('X', 'x'),
   ('Y', 'y'), ('Z', 'z'), ('Č', 'č'), ('Š', 'š'), ('Ž', 'ž'), ('Ć', 'ć'),
   ('Đ', 'đ')]

/-- Lower-case a single character (Python `str.lower`, restricted to the
alphabet of `LOWER_MAP`; anything else is left unchanged). -/
def lcChar (c : Char) : Char :=
  ((LOWER_MAP.find? (fun p => p.1 == c)).map Prod.snd).getD c

/-- The Slovenian diacritic letters appearing in the source regexes. -/
def slLetters : List Char := ['Č', 'Š', 'Ž', 'Ć', 'Đ', 'č', 'š', 'ž', 'ć', 'đ']

/-- Python `\w` (word character) for the alphabet of this code base:
ASCII alphanumerics, underscore and the Slovenian diacritics. -/
def isWordChar (c : Char) : Bool :=
  c.isAlphanum || c = '_' || slLetters.contains c

/-- Characters kept by the `_normalize_key` substitution
`re.sub` with class `[^A-Za-z0-9ČŠŽĆĐčšžćđ \.-]+` and empty replacement. -/
def keepChar (c : Char) : Bool :=
  c.isAlphanum || slLetters.contains c || c = ' ' || c = '.' || c = '-'

/-- Numeric value of a decimal digit character. -/
def digitVal (c : Char) : Nat := c.toNat - 48

/-- Value of a list of decimal digit characters (Python `int` on a digit
string). -/
def natOfDigits (l : List Char) : Nat :=
  l.foldl (fun a c => a * 10 + digitVal c) 0

/-- Decimal digit character for `n < 10`. -/
def digitChar10 (n : Nat) : Char := Char.ofNat (48 + n)

/-- Decimal representation of a `Nat`, fuelled for kernel reduction; the
fuel `n + 1` always suffices since a number has at most `n + 1` digits. -/
def decReprAux : Nat → Nat → List Char
  | 0, _ => []
  | fuel + 1, n =>
      if n < 10 then [digitChar10 n]
      else decReprAux fuel (n / 10) ++ [digitChar10 (n % 10)]

/-- Python `str(n)` for a nonnegative integer. -/
def decRepr (n : Nat) : String := ⟨decReprAux (n + 1) n⟩

/-- Hexadecimal value of one character (Python `int(s, 16)` digit; invalid
characters, which cannot occur in an average hash, count as 0). -/
def hexVal (c : Char) : Nat :=
  if c.isDigit then c.toNat - 48
  else if 'a' ≤ c && c ≤ 'f' then c.toNat - 87
  else if 'A' ≤ c && c ≤ 'F' then c.toNat - 55
  else 0

/-- Python `int(s, 16)` on a hex string. -/
def hexToNat (s : String) : Nat :=
  s.data.foldl (fun a c => a * 16 + hexVal c) 0

/-- Population count, fuelled for kernel reduction; the fuel bounds the
number of binary digits. -/
def popCountAux : Nat → Nat → Nat
  | 0, _ => 0
  | fuel + 1, n => if n = 0 then 0 else n % 2 + popCountAux fuel (n / 2)

/-- Model of `utils.hamming`: XOR of the two hex values followed by a bit count.
`4 * (|a| + |b|) + 1` units of fuel suffice because
`xor (int a) (int b) < 2 ^ (4 * (|a| + |b|))`. -/
def hamming (hex_a hex_b : String) : Nat :=
  popCountAux (4 * (hex_a.length + hex_b.length) + 1)
    (Nat.xor (hexToNat hex_a) (hexToNat hex_b))

/-- Python `s.split()` (split on whitespace runs, dropping empty pieces),
with an accumulator holding the current word reversed. -/
def pySplitGo (acc : List Char) : List Char → List (List Char)
  | [] => if acc.isEmpty then [] else [acc.reverse]
  | c :: cs =>
      if isSpaceChar c then
        if acc.isEmpty then pySplitGo [] cs else acc.reverse :: pySplitGo [] cs
      else pySplitGo (c :: acc) cs

/-- Python `s.split()`. -/
def pySplit (l : List Char) : List (List Char) := pySplitGo [] l

/-- Python `sep.join(words)` for a one-character separator. -/
def joinWith (sep : Char) : List (List Char) → List Char
  | [] => []
  | [w] => w
  | w :: x :: ws => w ++ sep :: joinWith sep (x :: ws)

/-- Python `s.strip()`. -/
def stripWS (l : List Char) : List Char :=
  ((l.dropWhile isSpaceChar).reverse.dropWhile isSpaceChar).reverse

/-- Python `re.sub` with a one-or-more character-class pattern, for a class `cls` and a
one-character replacement: each maximal run of class characters becomes a
single `repl`.  The flag records whether the previous character was in the
class (i.e. whether we are inside a run). -/
def replaceRunsGo (p : Char → Bool) (repl : Char) : List Char → Bool → List Char
  | [], _ => []
  | c :: cs, inRun =>
      if p c then
        if inRun then replaceRunsGo p repl cs true
        else repl :: replaceRunsGo p repl cs true
      else c :: replaceRunsGo p repl cs false

/-- Python `re.sub` of each class run by the replacement character. -/
def replaceRuns (p : Char → Bool) (repl : Char) (l : List Char) : List Char :=
  replaceRunsGo p repl l false

/-- Model of `core._normalize_key` on a character list:
`" ".join(s.split())`, then drop the characters outside
`[A-Za-z0-9ČŠŽĆĐčšžćđ .-]`, then `lower().strip()`. -/
def normalizeKeyChars (l : List Char) : List Char :=
  stripWS (((joinWith ' ' (pySplit l)).filter keepChar).map lcChar)

/-- Model of `core._normalize_key`. -/
def _normalize_key (s : String) : String := ⟨normalizeKeyChars s.data⟩

/-- The characters forbidden in filenames, from the regex
`[\\/:*?"<>|]+` of `utils.sanitize_filename`. -/
def ILLEGAL_FILENAME_CHARS : List Char :=
  ['\\', '/', ':', '*', '?', '"', '<', '>', '|']

/-- Membership in the illegal filename character class. -/
def isIllegalChar (c : Char) : Bool := ILLEGAL_FILENAME_CHARS.contains c

/-- Model of `utils.sanitize_filename` on a character list: replace runs of illegal
characters by `_`, collapse whitespace runs to single spaces, strip. -/
def sanitizeChars (l : List Char) : List Char :=
  stripWS (replaceRuns isSpaceChar ' ' (replaceRuns isIllegalChar '_' l))

/-- Model of `utils.sanitize_filename`; the final `name or NEZNANO` substitutes the
sentinel when the result is empty. -/
def sanitize_filename (name : String) : String :=
  let s := sanitizeChars name.data
  if s.isEmpty then "NEZNANO" else ⟨s⟩

/-- A path split as `pathlib` does for `utils.ensure_unique_path`:
`base` is the path with the suffix removed, `ext` is `path.suffix`. -/
structure FsPath where
  base : String
  ext : String
deriving DecidableEq

/-- The rendered path string. -/
def FsPath.render (p : FsPath) : String := p.base ++ p.ext

/-- The `_i`-suffixed candidate `f"{base}_{i}{ext}"`. -/
def FsPath.cand (p : FsPath) (i : Nat) : String :=
  p.base ++ "_" ++ decRepr i ++ p.ext

/-- Model of `utils.ensure_unique_path`, with the filesystem modelled as an existence
predicate `ex` and the clock as `nowMs` (Python `int(time.time()*1000)`):
return the path unchanged if it does not exist, otherwise the first free
`_1` … `_100` candidate, otherwise the `nowMs % 10000` timestamp suffix. -/
def ensure_unique_path (ex : String → Bool) (nowMs : Nat) (p : FsPath) : String :=
  if ex p.render = false then p.render
  else
    match (List.range' 1 100).find? (fun i => ex (p.cand i) = false) with
    | some i => p.cand i
    | none => p.cand (nowMs % 10000)

/-- Whether `ensure_unique_path` would take its last-resort timestamp branch
(the path exists and all 100 numbered candidates exist). -/
def usedTimestampFallback (ex : String → Bool) (p : FsPath) : Bool :=
  ex p.render && ((List.range' 1 100).find? (fun i => ex (p.cand i) = false)).isNone

/-- Model of `constants.PHASH_DISTANCE_THRESHOLD`. -/
def PHASH_DISTANCE_THRESHOLD : Nat := 18

/-- The fields of a successful `analyze_and_pdf_worker` record used by the
grouping phase of `BajOCR.group_folder_to_documents`: the textual group key
(`group`), the header average hash (`header_hash`), the page
number (`page`, `None` when undetected) and the name of the rendered
single-page PDF (the `name` of the `pdf` path). -/
structure PageRec where
  group : String
  header_hash : String
  page : Option Int
  pdf : String
deriving DecidableEq

/-- The prefix of a character list up to (excluding) the first occurrence
of `__`. -/
def takeUntilSep : List Char → List Char
  | [] => []
  | '_' :: '_' :: _ => []
  | c :: cs => c :: takeUntilSep cs

/-- The leading (document-type) component of a group key: element 0 of
the split of `gid` at `__`. -/
def leadingComponent (gid : String) : String :=
  ⟨takeUntilSep gid.data⟩

/-- The test applied to an existing bucket in the grouping loop: the bucket
is nonempty, both header hashes are truthy (nonempty strings), the Hamming
distance to the first member of the bucket is within the threshold, and the
leading group-key components agree. -/
def bucketMatches (r : PageRec) (arr : List PageRec) : Bool :=
  match arr with
  | [] => false
  | a0 :: _ =>
      !r.header_hash.isEmpty && !a0.header_hash.isEmpty &&
      hamming r.header_hash a0.header_hash ≤ PHASH_DISTANCE_THRESHOLD &&
      leadingComponent r.group == leadingComponent a0.group

/-- Append `r` to the first bucket (in insertion order) that satisfies
`bucketMatches`; `none` if no bucket qualifies. -/
def findBucket (r : PageRec) :
    List (String × List PageRec) → Option (List (String × List PageRec))
  | [] => none
  | (k, arr) :: rest =>
      if bucketMatches r arr then some ((k, arr ++ [r]) :: rest)
      else
        match findBucket r rest with
        | some rest2 => some ((k, arr) :: rest2)
        | none => none

/-- Python `buckets.setdefault(gid, []).append(r)` on an insertion-ordered
association list. -/
def setdefaultAppend (gid : String) (r : PageRec) :
    List (String × List PageRec) → List (String × List PageRec)
  | [] => [(gid, [r])]
  | (k, arr) :: rest =>
      if k == gid then (k, arr ++ [r]) :: rest
      else (k, arr) :: setdefaultAppend gid r rest

/-- One iteration of the grouping loop of
`BajOCR.group_folder_to_documents` (core.py lines 300-310). -/
def placeRecord (buckets : List (String × List PageRec)) (r : PageRec) :
    List (String × List PageRec) :=
  match findBucket r buckets with
  | some b => b
  | none => setdefaultAppend r.group r buckets

/-- The grouping loop over all successful records, in completion order. -/
def groupRecords (results : List PageRec) : List (String × List PageRec) :=
  results.foldl placeRecord []

/-- Maximal digit / non-digit runs of a string
(`re.findall` with pattern `\d+|\D+`); the accumulator holds the current run
reversed together with its kind. -/
def natChunksGo (cur : List Char) (curIsDigit : Bool) :
    List Char → List (List Char)
  | [] => [cur.reverse]
  | c :: cs =>
      if c.isDigit = curIsDigit then natChunksGo (c :: cur) curIsDigit cs
      else cur.reverse :: natChunksGo [c] c.isDigit cs

/-- Model of `re.findall` with pattern `\d+|\D+`. -/
def natChunks : List Char → List (List Char)
  | [] => []
  | c :: cs => natChunksGo [c] c.isDigit cs

/-- Model of `utils.natural_sort_key` applied to a file name: digit runs become
integers, other runs are lower-cased. -/
def natural_sort_key (name : String) : List (Nat ⊕ String) :=
  (natChunks name.data).map (fun t =>
    if (t.headD ' ').isDigit then Sum.inl (natOfDigits t)
    else Sum.inr ⟨t.map lcChar⟩)

/-- Python string comparison (lexicographic by code point) on the
character lists. -/
def charListLt : List Char → List Char → Bool
  | _, [] => false
  | [], _ :: _ => true
  | a :: as, b :: bs => if a == b then charListLt as bs else a < b

/-- Comparison of two natural-sort-key tokens, as Python compares list
elements: numbers with numbers, strings with strings; `none` models the
`TypeError` Python raises when an `int` token meets a `str` token. -/
def tokCmp : (Nat ⊕ String) → (Nat ⊕ String) → Option Ordering
  | .inl x, .inl y =>
      some (if x < y then Ordering.lt
            else if y < x then Ordering.gt else Ordering.eq)
  | .inr x, .inr y =>
      some (if charListLt x.data y.data then Ordering.lt
            else if charListLt y.data x.data then Ordering.gt
            else Ordering.eq)
  | .inl _, .inr _ => none
  | .inr _, .inl _ => none

/-- Lexicographic comparison of token lists (Python list comparison):
decide at the first differing same-type pair; reaching a mixed-type pair
first is the `TypeError` path (`none`). -/
def keyListCmp :
    List (Nat ⊕ String) → List (Nat ⊕ String) → Option Ordering
  | [], [] => some Ordering.eq
  | [], _ :: _ => some Ordering.lt
  | _ :: _, [] => some Ordering.gt
  | a :: as, b :: bs =>
      match tokCmp a b with
      | none => none
      | some Ordering.lt => some Ordering.lt
      | some Ordering.gt => some Ordering.gt
      | some Ordering.eq => keyListCmp as bs

/-- The first sort-key component of the in-bucket ordering:
the page number when it is an integer, else `10 ** 9`. -/
def effectivePage (r : PageRec) : Int :=
  match r.page with
  | some n => n
  | none => 1000000000

/-- Comparison of the sort keys `(effectivePage, natural_sort_key(pdf))`,
as Python compares tuples: the integer first components always compare, and
the token lists are compared only when the pages tie.  `none` is the
`TypeError` path. -/
def recKeyCmp (a b : PageRec) : Option Ordering :=
  if effectivePage a < effectivePage b then some Ordering.lt
  else if effectivePage b < effectivePage a then some Ordering.gt
  else keyListCmp (natural_sort_key a.pdf) (natural_sort_key b.pdf)

/-- Strict key order driving the sort model: the comparison completes and
says less-than. -/
def recKeyLT (a b : PageRec) : Bool :=
  decide (recKeyCmp a b = some Ordering.lt)

/-- Non-strict key order: the comparison completes with less-than or
equal. -/
def recKeyLE (a b : PageRec) : Prop :=
  recKeyCmp a b = some Ordering.lt ∨ recKeyCmp a b = some Ordering.eq

/-- No key comparison among records of the list hits the `TypeError` path:
on such a list the Python sort cannot raise, whatever pairs it compares. -/
abbrev allComparable (l : List PageRec) : Prop :=
  ∀ a ∈ l, ∀ b ∈ l, (recKeyCmp a b).isSome = true

/-- Stable insertion of a record into an already sorted list: the new
record goes after all records it does not strictly precede. -/
def insertRec (x : PageRec) : List PageRec → List PageRec
  | [] => [x]
  | y :: ys => if recKeyLT x y then x :: y :: ys else y :: insertRec x ys

/-- The in-bucket sort `arr.sort(key=...)` of
`BajOCR.group_folder_to_documents` (core.py lines 313-315), modelled as a
stable insertion sort.  The Python sort is stable, and on lists where no
key comparison hits the `TypeError` path (`allComparable`) its key order is
total, so the stable insertion sort computes the same result; on other
lists Python raises `TypeError` and this model is not claimed to agree. -/
def sortBucket (arr : List PageRec) : List PageRec :=
  arr.foldl (fun acc x => insertRec x acc) []

/-- A backtracking regex fragment: given the input, produce every way to
match a prefix, highest-priority (leftmost-greedy) first, each with its
captured value and the remaining input. -/
abbrev Matcher (α : Type) : Type := List Char → List (α × List Char)

/-- Sequence two fragments, the second depending on the capture of the first;
`flatMap` preserves the backtracking priority order. -/
def mSeq (p : Matcher α) (q : α → Matcher β) : Matcher β := fun s =>
  (p s).flatMap (fun x => q x.1 x.2)

/-- Transform the captured value. -/
def mMap (f : α → β) (p : Matcher α) : Matcher β := fun s =>
  (p s).map (fun x => (f x.1, x.2))

/-- Greedy `\d{1,2}`: two digits preferred over one. -/
def mDigits12 : Matcher (List Char) := fun s =>
  match s with
  | [] => []
  | [c1] => if c1.isDigit then [([c1], [])] else []
  | c1 :: c2 :: rest =>
      if c1.isDigit then
        if c2.isDigit then [([c1, c2], rest), ([c1], c2 :: rest)]
        else [([c1], c2 :: rest)]
      else []

/-- Model of `\d{4}`: exactly four digits. -/
def mDigits4 : Matcher (List Char) := fun s =>
  match s with
  | a :: b :: c :: d :: rest =>
      if a.isDigit && b.isDigit && c.isDigit && d.isDigit then
        [([a, b, c, d], rest)]
      else []
  | _ => []

/-- Model of `\d{3}` helper for `\d{2,4}`. -/
def mDigits3 : Matcher (List Char) := fun s =>
  match s with
  | a :: b :: c :: rest =>
      if a.isDigit && b.isDigit && c.isDigit then [([a, b, c], rest)] else []
  | _ => []

/-- Model of `\d{2}` helper for `\d{2,4}`. -/
def mDigits2 : Matcher (List Char) := fun s =>
  match s with
  | a :: b :: rest => if a.isDigit && b.isDigit then [([a, b], rest)] else []
  | _ => []

/-- Greedy `\d{2,4}`: four digits, then three, then two. -/
def mDigits24 : Matcher (List Char) := fun s =>
  mDigits4 s ++ mDigits3 s ++ mDigits2 s

/-- Length of the maximal class-satisfying leading run. -/
def countLeading (p : Char → Bool) : List Char → Nat
  | [] => 0
  | c :: cs => if p c then countLeading p cs + 1 else 0

/-- Greedy `[cls]*`: consume the longest run first, then backtrack. -/
def mStarGreedy (p : Char → Bool) : Matcher Unit := fun s =>
  let n := countLeading p s
  (List.range (n + 1)).map (fun k => ((), s.drop (n - k)))

/-- Greedy `[cls]+`: at least one class character. -/
def mPlusGreedy (p : Char → Bool) : Matcher Unit := fun s =>
  let n := countLeading p s
  (List.range n).map (fun k => ((), s.drop (n - k)))

/-- Greedy optional literal `c?`. -/
def mOptChar (ch : Char) : Matcher Unit := fun s =>
  match s with
  | [] => [((), [])]
  | c :: cs => if c = ch then [((), cs), ((), c :: cs)] else [((), c :: cs)]

/-- Literal character. -/
def mLit (ch : Char) : Matcher Unit := fun s =>
  match s with
  | [] => []
  | c :: cs => if c = ch then [((), cs)] else []

/-- Case-insensitive literal word, returning the matched original text. -/
def mLitCIGo : List Char → List Char → Option (List Char × List Char)
  | [], s => some ([], s)
  | _ :: _, [] => none
  | k :: ks, c :: cs =>
      if lcChar k == lcChar c then
        match mLitCIGo ks cs with
        | some (m, rest) => some (c :: m, rest)
        | none => none
      else none

/-- Case-insensitive literal word as a fragment. -/
def mLitCI (kw : List Char) : Matcher (List Char) := fun s =>
  match mLitCIGo kw s with
  | some (m, rest) => [(m, rest)]
  | none => []

/-- The date separator class `[\.,/\-\s]` of `constants.DATE_PATTERNS`. -/
def isDateSep (c : Char) : Bool :=
  c = '.' || c = ',' || c = '/' || c = '-' || isSpaceChar c

/-- The month-name alternation of `DATE_PATTERNS[2]`, in the alternation
order of the regex (full names before abbreviations). -/
def MONTH_NAME_ALTS : List String :=
  ["januar", "februar", "marec", "april", "maj", "junij", "julij", "avgust",
   "september", "oktober", "november", "december",
   "jan", "feb", "mar", "apr", "maj", "jun", "jul", "avg", "sep", "okt",
   "nov", "dec"]

/-- The month-name group, trying alternatives in regex order. -/
def mMonthName : Matcher (List Char) := fun s =>
  MONTH_NAME_ALTS.flatMap (fun kw => mLitCI kw.data s)

/-- Model of `DATE_PATTERNS[0]`:
`(\d{1,2})\s*[\.,/\-\s]+(\d{1,2})\s*[\.,/\-\s]+(\d{4})`. -/
def datePattern0 : Matcher (String × String × String) :=
  mSeq mDigits12 (fun g1 =>
  mSeq (mStarGreedy isSpaceChar) (fun _ =>
  mSeq (mPlusGreedy isDateSep) (fun _ =>
  mSeq mDigits12 (fun g2 =>
  mSeq (mStarGreedy isSpaceChar) (fun _ =>
  mSeq (mPlusGreedy isDateSep) (fun _ =>
  mMap (fun g3 => (⟨g1⟩, ⟨g2⟩, ⟨g3⟩)) mDigits4))))))

/-- Model of `DATE_PATTERNS[1]`:
`(\d{4})\s*[\.,/\-\s]+(\d{1,2})\s*[\.,/\-\s]+(\d{1,2})`. -/
def datePattern1 : Matcher (String × String × String) :=
  mSeq mDigits4 (fun g1 =>
  mSeq (mStarGreedy isSpaceChar) (fun _ =>
  mSeq (mPlusGreedy isDateSep) (fun _ =>
  mSeq mDigits12 (fun g2 =>
  mSeq (mStarGreedy isSpaceChar) (fun _ =>
  mSeq (mPlusGreedy isDateSep) (fun _ =>
  mMap (fun g3 => (⟨g1⟩, ⟨g2⟩, ⟨g3⟩)) mDigits12))))))

/-- Model of `DATE_PATTERNS[2]`:
`(\d{1,2})\.?\s*(januar|…|dec)\s*(\d{4})`, case-insensitive. -/
def datePattern2 : Matcher (String × String × String) :=
  mSeq mDigits12 (fun g1 =>
  mSeq (mOptChar '.') (fun _ =>
  mSeq (mStarGreedy isSpaceChar) (fun _ =>
  mSeq mMonthName (fun g2 =>
  mSeq (mStarGreedy isSpaceChar) (fun _ =>
  mMap (fun g3 => (⟨g1⟩, ⟨g2⟩, ⟨g3⟩)) mDigits4)))))

/-- Model of `DATE_PATTERNS[3]`:
`(\d{1,2})\s*\.\s*(\d{1,2})\s*\.\s*(\d{2,4})`. -/
def datePattern3 : Matcher (String × String × String) :=
  mSeq mDigits12 (fun g1 =>
  mSeq (mStarGreedy isSpaceChar) (fun _ =>
  mSeq (mLit '.') (fun _ =>
  mSeq (mStarGreedy isSpaceChar) (fun _ =>
  mSeq mDigits12 (fun g2 =>
  mSeq (mStarGreedy isSpaceChar) (fun _ =>
  mSeq (mLit '.') (fun _ =>
  mSeq (mStarGreedy isSpaceChar) (fun _ =>
  mMap (fun g3 => (⟨g1⟩, ⟨g2⟩, ⟨g3⟩)) mDigits24))))))))

/-- Model of `DATE_PATTERNS[4]`: `(\d{1,2})\s+(\d{1,2})\s+(\d{4})`. -/
def datePattern4 : Matcher (String × String × String) :=
  mSeq mDigits12 (fun g1 =>
  mSeq (mPlusGreedy isSpaceChar) (fun _ =>
  mSeq mDigits12 (fun g2 =>
  mSeq (mPlusGreedy isSpaceChar) (fun _ =>
  mMap (fun g3 => (⟨g1⟩, ⟨g2⟩, ⟨g3⟩)) mDigits4))))

/-- Model of `constants.DATE_PATTERNS`, in order. -/
def DATE_PATTERNS : List (Matcher (String × String × String)) :=
  [datePattern0, datePattern1, datePattern2, datePattern3, datePattern4]

/-- Model of `re.findall`: scan left to right; at each position take the
highest-priority match, emit its groups and continue after it, else advance
one character.  Fuel is the input length; every one of the five patterns
consumes at least one character, so the fuel never runs out early. -/
def findAllGo (p : Matcher (String × String × String)) :
    Nat → List Char → List (String × String × String)
  | 0, _ => []
  | _ + 1, [] => []
  | fuel + 1, c :: cs =>
      match (p (c :: cs)).head? with
      | some (caps, rest) => caps :: findAllGo p fuel rest
      | none => findAllGo p fuel cs

/-- Model of `pattern.findall(s)`. -/
def findAll (p : Matcher (String × String × String)) (s : List Char) :
    List (String × String × String) :=
  findAllGo p s.length s

/-- The character class kept by the second cleanup substitution of
`extract_date_enhanced` (`re.sub` with class `[^\w\s\.,/\-:]`). -/
def cleanKeep (c : Char) : Bool :=
  isWordChar c || isSpaceChar c || c = '.' || c = ',' || c = '/' ||
  c = '-' || c = ':'

/-- The text cleanup of `extract_date_enhanced` (core.py lines 103-104):
collapse whitespace runs to single spaces, then blank every character
outside the kept class. -/
def cleanText (t : String) : String :=
  ⟨(replaceRuns isSpaceChar ' ' t.data).map (fun c =>
    if cleanKeep c then c else ' ')⟩

/-- Model of `constants.MONTH_MAP`. -/
def MONTH_MAP : List (String × String) :=
  [("januar", "01"), ("jan", "01"), ("februar", "02"), ("feb", "02"),
   ("marec", "03"), ("mar", "03"), ("april", "04"), ("apr", "04"),
   ("maj", "05"), ("junij", "06"), ("jun", "06"), ("julij", "07"),
   ("jul", "07"), ("avgust", "08"), ("avg", "08"), ("september", "09"),
   ("sep", "09"), ("oktober", "10"), ("okt", "10"), ("november", "11"),
   ("nov", "11"), ("december", "12"), ("dec", "12")]

/-- Model of `MONTH_MAP.get` with default `01`. -/
def monthLookup (name : String) : String :=
  ((MONTH_MAP.find? (fun p => p.1 == name)).map Prod.snd).getD "01"

/-- Python `s.zfill(2)`. -/
def zfill2 (s : String) : String :=
  if s.length ≥ 2 then s else ⟨List.replicate (2 - s.length) '0' ++ s.data⟩

/-- The year normalisation of `extract_date_enhanced` (core.py lines
124-126): `int(year)`, then for a two-character year field
`+= 1900 if year_int > 50 else 2000`. -/
def normalize_year (year : String) : Nat :=
  if year.length = 2 then
    (if natOfDigits year.data > 50 then natOfDigits year.data + 1900
     else natOfDigits year.data + 2000)
  else natOfDigits year.data

/-- The per-match validation and formatting of `extract_date_enhanced`
(core.py lines 123-133): normalise the year, keep the match only when the
year lies in `[1900, currentYear+1]` and month/day in `[1,12]`/`[1,31]`,
and format it `day.zfill(2)-month.zfill(2)-str(year_int)`. -/
def validateMatch (currentYear : Nat) (day month year : String) :
    Option (String × Nat) :=
  if 1900 ≤ normalize_year year ∧ normalize_year year ≤ currentYear + 1 then
    if 1 ≤ natOfDigits month.data ∧ natOfDigits month.data ≤ 12 ∧
        1 ≤ natOfDigits day.data ∧ natOfDigits day.data ≤ 31 then
      some (zfill2 day ++ "-" ++ zfill2 month ++ "-" ++
              decRepr (normalize_year year),
            normalize_year year)
    else none
  else none

/-- Group reordering per pattern index (core.py lines 111-121): pattern 1
is year-month-day, pattern 2 looks the month name up in `MONTH_MAP` after
lower-casing, the rest are day-month-year. -/
def matchToDMY (i : Nat) (m : String × String × String) :
    String × String × String :=
  if i = 1 then (m.2.2, m.2.1, m.1)
  else if i = 2 then (m.1, monthLookup ⟨m.2.1.data.map lcChar⟩, m.2.2)
  else m

/-- The `found_dates` list of `extract_date_enhanced`: the `findall`
output of every pattern over the cleaned text, in pattern order, validated,
paired with the normalised year. -/
def found_dates (currentYear : Nat) (text : String) : List (String × Nat) :=
  let ct := (cleanText text).data
  DATE_PATTERNS.enum.flatMap (fun ip =>
    (findAll ip.2 ct).filterMap (fun m =>
      let dmy := matchToDMY ip.1 m
      validateMatch currentYear dmy.1 dmy.2.1 dmy.2.2))

/-- Stable descending insertion by year for
`found_dates.sort(key=lambda x: x[1], reverse=True)`: a later element goes
after all elements with a greater-or-equal year. -/
def insertDateDesc (x : String × Nat) :
    List (String × Nat) → List (String × Nat)
  | [] => [x]
  | y :: ys => if x.2 > y.2 then x :: y :: ys else y :: insertDateDesc x ys

/-- The stable Python `sort(key=year, reverse=True)`. -/
def sortDatesDesc (l : List (String × Nat)) : List (String × Nat) :=
  l.foldl (fun acc x => insertDateDesc x acc) []

/-- Model of `core.extract_date_enhanced`, parametrised by the current
formatted date (`current_date`) and year: the first entry of the
year-sorted `found_dates` list, the current date when no match validated. -/
def extract_date_enhanced (currentDate : String) (currentYear : Nat)
    (text : String) : String :=
  match (sortDatesDesc (found_dates currentYear text)).head? with
  | some p => p.1
  | none => currentDate

/-- The region-fallback trigger of `core.extract_date_with_targeted_ocr`
(lines 166-169): the whole-page result is returned immediately iff it is
truthy and differs from the current-date string; otherwise the targeted re-OCR of
image regions is entered. -/
def targeted_ocr_fallback_triggered (currentDate : String)
    (currentYear : Nat) (full_text : String) : Bool :=
  if extract_date_enhanced currentDate currentYear full_text ≠ "" ∧
      extract_date_enhanced currentDate currentYear full_text ≠ currentDate
  then false else true

/-- Match a keyword (case-insensitively) against the beginning of the text,
returning the rest. -/
def matchKwAt : List Char → List Char → Option (List Char)
  | [], s => some s
  | _ :: _, [] => none
  | k :: ks, c :: cs => if lcChar k == lcChar c then matchKwAt ks cs else none

/-- Case-insensitive `re.search` of `\b kw \b` for a keyword that starts
and ends with a word character (all keywords here do): try every position
whose preceding character is not a word character, and require the first
character after the match to be absent or not a word character.  `prevW`
says whether the previous character was a word character. -/
def kwSearchGo (kw : List Char) : Bool → List Char → Bool
  | _, [] => false
  | prevW, c :: cs =>
      ((!prevW) &&
        (match matchKwAt kw (c :: cs) with
         | some rest => rest.isEmpty || !isWordChar (rest.headD ' ')
         | none => false)) ||
      kwSearchGo kw (isWordChar c) cs

/-- Whether any of the keywords occurs (with word boundaries,
case-insensitively) in the text: the alternation `\b(KW1|KW2)\b`. -/
def kwAnySearch (kws : List String) (text : String) : Bool :=
  kws.any (fun kw => kwSearchGo kw.data false text.data)

/-- Model of `constants.DOC_TYPE_PATTERNS`: label and keyword alternatives, in the
source order (`POGODB[AO]` is the two-keyword alternation, `RAČUN|FAKTURA`
likewise). -/
def DOC_TYPE_PATTERNS : List (String × List String) :=
  [("IZJAVA", ["IZJAVA"]),
   ("POGODBA", ["POGODBA", "POGODBO"]),
   ("RAČUN", ["RAČUN", "FAKTURA"]),
   ("PONUDBA", ["PONUDBA"]),
   ("NAROČILNICA", ["NAROČILNICA"]),
   ("DOBAVNICA", ["DOBAVNICA"]),
   ("SKLEP", ["SKLEP"]),
   ("ODLOČBA", ["ODLOČBA"]),
   ("POTRDILO", ["POTRDILO"]),
   ("OBVESTILO", ["OBVESTILO"])]

/-- Split on newline characters (`str.splitlines` for `\n`-separated
text). -/
def splitOnNl : List Char → List (List Char)
  | [] => [[]]
  | c :: cs =>
      if c = '\n' then [] :: splitOnNl cs
      else
        match splitOnNl cs with
        | [] => [[c]]
        | w :: ws => (c :: w) :: ws

/-- The header block of `detect_doc_type_worker`: the first 20 stripped
non-empty lines joined with newlines. -/
def docHead (text : String) : String :=
  ⟨joinWith '\n'
    ((((splitOnNl text.data).map stripWS).filter (fun l => !l.isEmpty)).take 20)⟩

/-- Model of `core.detect_doc_type_worker`: first matching label over the header
block, else over the full text, else the sentinel `NEZNANO`. -/
def detect_doc_type_worker (text : String) : String :=
  match DOC_TYPE_PATTERNS.find? (fun p => kwAnySearch p.2 (docHead text)) with
  | some p => p.1
  | none =>
      match DOC_TYPE_PATTERNS.find? (fun p => kwAnySearch p.2 text) with
      | some p => p.1
      | none => "NEZNANO"

/-- Modelled from the spec: the claimed classifier list order —
contract, invoice, offer, purchase order, delivery note, decision,
resolution, confirmation, notice, declaration — i.e. `IZJAVA` last instead
of first, everything else as in the source. -/
def DOC_TYPE_PATTERNS_claimedOrder : List (String × List String) :=
  [("POGODBA", ["POGODBA", "POGODBO"]),
   ("RAČUN", ["RAČUN", "FAKTURA"]),
   ("PONUDBA", ["PONUDBA"]),
   ("NAROČILNICA", ["NAROČILNICA"]),
   ("DOBAVNICA", ["DOBAVNICA"]),
   ("SKLEP", ["SKLEP"]),
   ("ODLOČBA", ["ODLOČBA"]),
   ("POTRDILO", ["POTRDILO"]),
   ("OBVESTILO", ["OBVESTILO"]),
   ("IZJAVA", ["IZJAVA"])]

/-- Modelled from the spec: the classifier as claimed, identical to
`detect_doc_type_worker` except for the claimed list order. -/
def detect_doc_type_claimed (text : String) : String :=
  match DOC_TYPE_PATTERNS_claimedOrder.find?
      (fun p => kwAnySearch p.2 (docHead text)) with
  | some p => p.1
  | none =>
      match DOC_TYPE_PATTERNS_claimedOrder.find?
          (fun p => kwAnySearch p.2 text) with
      | some p => p.1
      | none => "NEZNANO"

/-- Modelled from the spec (amended order): the reference classifier with
declaration first — scan labels in order over the header, then over the
full text, else `NEZNANO` — written as direct recursion over the pattern
list. -/
def firstMatchingLabel (f : List String → Bool) :
    List (String × List String) → Option String
  | [] => none
  | p :: ps => if f p.2 then some p.1 else firstMatchingLabel f ps

/-- Modelled from the spec (amended order): header first, then full text,
then the unknown sentinel. -/
def detect_doc_type_amended_ref (text : String) : String :=
  match firstMatchingLabel (fun kws => kwAnySearch kws (docHead text))
      DOC_TYPE_PATTERNS with
  | some l => l
  | none =>
      match firstMatchingLabel (fun kws => kwAnySearch kws text)
          DOC_TYPE_PATTERNS with
      | some l => l
      | none => "NEZNANO"

/-- One pattern of `constants.PAGE_NUMBER_PATTERNS`, e.g.
`\bstran\s*(\d+)\b`, searched case-insensitively: find the first position
(non-word-boundary before) where the keyword matches, followed by optional
whitespace and a digit run whose end is a word boundary; return the digit
value of the run.  A shorter digit prefix would end before another digit
(a word character), so only the maximal run can satisfy the trailing `\b`. -/
def pageSearchGo (kw : List Char) : Bool → List Char → Option Nat
  | _, [] => none
  | prevW, c :: cs =>
      (if !prevW then
        match matchKwAt kw (c :: cs) with
        | some rest =>
            let rest2 := rest.dropWhile isSpaceChar
            let ds := rest2.takeWhile Char.isDigit
            let after := rest2.drop ds.length
            if !ds.isEmpty && (after.isEmpty || !isWordChar (after.headD ' '))
            then some (natOfDigits ds)
            else none
        | none => none
      else none).orElse
        (fun _ => pageSearchGo kw (isWordChar c) cs)

/-- The keyword parts of `constants.PAGE_NUMBER_PATTERNS`, in order
(`stran`, `str.`, `page`, `pg.`). -/
def PAGE_NUMBER_KEYWORDS : List String := ["stran", "str.", "page", "pg."]

/-- Model of `core.extract_page_number_worker`: the first pattern (in order) with a
match wins; its captured digits become the page number. -/
def extract_page_number_worker (text : String) : Option Int :=
  (PAGE_NUMBER_KEYWORDS.findSome?
    (fun kw => pageSearchGo kw.data false text.data)).map Int.ofNat

/-- The bottom-strip scan of `analyze_and_pdf_worker` (core.py lines
486-496), on the OCR word tokens of the bottom strip: keep tokens whose
stripped text is a 1-3 character digit string, take the value of the last one. -/
def bottom_strip_page_number (tokens : List String) : Option Int :=
  ((tokens.filter (fun t =>
      let s := stripWS t.data
      !s.isEmpty && s.all Char.isDigit && s.length ≤ 3)).map
    (fun t => Int.ofNat (natOfDigits (stripWS t.data)))).getLast?

/-- A filesystem for the `ensure_unique_path` counterexample: the base path
and all one hundred numbered candidates exist. -/
def occupiedFs : String → Bool := fun s =>
  s == "doc.pdf" ||
  (List.range' 1 100).any (fun i => s == "doc_" ++ decRepr i ++ ".pdf")

/-- The path used by the `ensure_unique_path` example statements. -/
def docPath : FsPath := ⟨"doc", ".pdf"⟩

theorem mem_replaceRunsGo {p : Char → Bool} {r : Char} {c : Char}
    {l : List Char} {flag : Bool} (h : c ∈ replaceRunsGo p r l flag) :
    c = r ∨ (c ∈ l ∧ p c = false) := by
  induction l generalizing flag with
  | nil => simp [replaceRunsGo] at h
  | cons x xs ih =>
    by_cases hx : p x
    · by_cases hf : flag
      · simp only [replaceRunsGo, hx, hf, if_true] at h
        rcases ih h with h1 | h2
        · exact Or.inl h1
        · exact Or.inr ⟨List.mem_cons_of_mem _ h2.1, h2.2⟩
      · simp only [replaceRunsGo, hx, hf, if_true, if_false,
          Bool.false_eq_true, List.mem_cons] at h
        rcases h with h1 | h1
        · exact Or.inl h1
        · rcases ih h1 with h2 | h3
          · exact Or.inl h2
          · exact Or.inr ⟨List.mem_cons_of_mem _ h3.1, h3.2⟩
    · simp only [replaceRunsGo, hx, if_false, Bool.false_eq_true,
        List.mem_cons] at h
      rcases h with h1 | h1
      · subst h1
        exact Or.inr ⟨List.mem_cons_self _ _, by simpa using hx⟩
      · rcases ih h1 with h2 | h3
        · exact Or.inl h2
        · exact Or.inr ⟨List.mem_cons_of_mem _ h3.1, h3.2⟩

theorem mem_stripWS {l : List Char} {c : Char} (h : c ∈ stripWS l) :
    c ∈ l := by
  unfold stripWS at h
  rw [List.mem_reverse] at h
  have h1 : c ∈ (l.dropWhile isSpaceChar).reverse :=
    (List.dropWhile_sublist _).mem h
  rw [List.mem_reverse] at h1
  exact (List.dropWhile_sublist _).mem h1

/-- C9: `sanitize_filename` always returns a non-empty string and the
result contains none of the path-illegal characters
`\ / : * ? " < > |`. -/
theorem C9_sanitize (name : String) :
    sanitize_filename name ≠ "" ∧
    ∀ c ∈ (sanitize_filename name).data, isIllegalChar c = false := by
  unfold sanitize_filename
  by_cases h : (sanitizeChars name.data).isEmpty
  · rw [if_pos h]
    exact ⟨by decide, by decide⟩
  · rw [if_neg h]
    constructor
    · intro heq
      have hd : sanitizeChars name.data = [] := congrArg String.data heq
      rw [hd] at h
      simp at h
    · intro c hc
      have hc1 : c ∈ sanitizeChars name.data := hc
      unfold sanitizeChars at hc1
      have hc2 := mem_stripWS hc1
      rcases mem_replaceRunsGo hc2 with h1 | ⟨h3, _⟩
      · subst h1; decide
      · rcases mem_replaceRunsGo h3 with h5 | ⟨_, h7⟩
        · subst h5; decide
        · exact h7

/-- C9 witness: a concrete instance of `C9_sanitize`. -/
theorem C9_sanitize_witness :
    sanitize_filename "a/b" ≠ "" ∧ isIllegalChar '_' = false :=
  ⟨(C9_sanitize "a/b").1, (C9_sanitize "a/b").2 '_' (by decide)⟩

/-- C10 counterexample: when the base path and all hundred numbered
candidates exist, two sequential calls for the same base name (the first
result being created in between) both land in the millisecond-timestamp
branch and return the *same* path — they collide, refuting the claimed
unconditional distinctness. -/
theorem C10_counterexample :
    ensure_unique_path occupiedFs 5 docPath = "doc_5.pdf" ∧
    ensure_unique_path
        (fun s => occupiedFs s ||
          (s == ensure_unique_path occupiedFs 5 docPath)) 5 docPath =
      ensure_unique_path occupiedFs 5 docPath := by decide

/-- C10 (amended): `ensure_unique_path` returns the path unchanged when it
does not exist, otherwise the first free `_1` … `_100` candidate, then a
timestamp-derived suffix; two sequential calls for the same base name (the
first result existing at the time of the second call) yield distinct paths
*provided* the second call does not reach the timestamp fallback. -/
theorem C10_amended (ex : String → Bool) (p : FsPath) (n1 n2 : Nat) :
    (ex p.render = false → ensure_unique_path ex n1 p = p.render) ∧
    (usedTimestampFallback
        (fun s => ex s || (s == ensure_unique_path ex n1 p)) p = false →
      ensure_unique_path
          (fun s => ex s || (s == ensure_unique_path ex n1 p)) n2 p ≠
        ensure_unique_path ex n1 p) := by
  constructor
  · intro h
    unfold ensure_unique_path
    rw [if_pos h]
  · intro hfb heq
    set r1 := ensure_unique_path ex n1 p with hr1
    set ex2 : String → Bool := fun s => ex s || (s == r1) with hex2
    have hx2r1 : ex2 r1 = true := by
      simp [hex2]
    unfold ensure_unique_path at heq
    by_cases hren : ex2 p.render = false
    · rw [if_pos hren] at heq
      rw [heq] at hren
      rw [hx2r1] at hren
      exact absurd hren (by simp)
    · rw [if_neg hren] at heq
      rcases hfind : (List.range' 1 100).find?
          (fun i => ex2 (p.cand i) = false) with _ | i
      · have : usedTimestampFallback ex2 p = true := by
          unfold usedTimestampFallback
          rw [hfind]
          simp only [Option.isNone_none, Bool.and_true]
          simpa using hren
        rw [this] at hfb
        exact absurd hfb (by simp)
      · rw [hfind] at heq
        have heq2 : p.cand i = r1 := heq
        have hpi := List.find?_some hfind
        simp only [decide_eq_true_eq] at hpi
        rw [heq2] at hpi
        rw [hx2r1] at hpi
        exact absurd hpi (by simp)

/-- C10 witness: a concrete instance of `C10_amended` on an empty
filesystem. -/
theorem C10_amended_witness :
    ensure_unique_path (fun _ => false) 1 docPath = docPath.render ∧
    ensure_unique_path
        (fun s => (fun _ => false) s ||
          (s == ensure_unique_path (fun _ => false) 1 docPath)) 2 docPath ≠
      ensure_unique_path (fun _ => false) 1 docPath :=
  ⟨(C10_amended (fun _ => false) docPath 1 2).1 rfl,
   (C10_amended (fun _ => false) docPath 1 2).2 (by decide)⟩

theorem lower_map_snd_props :
    ∀ p ∈ LOWER_MAP, keepChar p.2 = true ∧ isSpaceChar p.2 = false ∧
      LOWER_MAP.find? (fun q => q.1 == p.2) = none := by decide

theorem lcChar_eq_of_find_none {c : Char}
    (h : LOWER_MAP.find? (fun p => p.1 == c) = none) : lcChar c = c := by
  unfold lcChar
  rw [h]
  rfl

theorem lcChar_eq_of_find_some {c : Char} {p : Char × Char}
    (h : LOWER_MAP.find? (fun q => q.1 == c) = some p) : lcChar c = p.2 := by
  unfold lcChar
  rw [h]
  rfl

theorem lcChar_lcChar (c : Char) : lcChar (lcChar c) = lcChar c := by
  rcases hf : LOWER_MAP.find? (fun p => p.1 == c) with _ | p
  · simp [lcChar_eq_of_find_none hf]
  · have hp := lower_map_snd_props p (List.mem_of_find?_eq_some hf)
    rw [lcChar_eq_of_find_some hf, lcChar_eq_of_find_none hp.2.2]

theorem lcChar_not_space {c : Char} (h : isSpaceChar c = false) :
    isSpaceChar (lcChar c) = false := by
  rcases hf : LOWER_MAP.find? (fun p => p.1 == c) with _ | p
  · rw [lcChar_eq_of_find_none hf]; exact h
  · have hp := lower_map_snd_props p (List.mem_of_find?_eq_some hf)
    rw [lcChar_eq_of_find_some hf]; exact hp.2.1

theorem lcChar_keep {c : Char} (h : keepChar c = true) :
    keepChar (lcChar c) = true := by
  rcases hf : LOWER_MAP.find? (fun p => p.1 == c) with _ | p
  · rw [lcChar_eq_of_find_none hf]; exact h
  · have hp := lower_map_snd_props p (List.mem_of_find?_eq_some hf)
    rw [lcChar_eq_of_find_some hf]; exact hp.1

theorem pySplitGo_words : ∀ {l acc : List Char},
    (∀ c ∈ acc, isSpaceChar c = false) →
    ∀ w ∈ pySplitGo acc l, w ≠ [] ∧ ∀ c ∈ w, isSpaceChar c = false := by
  intro l
  induction l with
  | nil =>
    intro acc hacc w hw
    by_cases h : acc.isEmpty
    · simp [pySplitGo, h] at hw
    · simp only [pySplitGo, h, Bool.false_eq_true, if_false,
        List.mem_singleton] at hw
      subst hw
      refine ⟨?_, fun c hc => hacc c (List.mem_reverse.mp hc)⟩
      simp only [List.isEmpty_iff] at h
      simpa using h
  | cons x xs ih =>
    intro acc hacc w hw
    by_cases hx : isSpaceChar x
    · by_cases ha : acc.isEmpty
      · simp only [pySplitGo, hx, ha, if_true] at hw
        exact ih (by simp) w hw
      · simp only [pySplitGo, hx, ha, if_true, Bool.false_eq_true, if_false,
          List.mem_cons] at hw
        rcases hw with h1 | h1
        · subst h1
          refine ⟨?_, fun c hc => hacc c (List.mem_reverse.mp hc)⟩
          simp only [List.isEmpty_iff] at ha
          simpa using ha
        · exact ih (by simp) w h1
    · simp only [pySplitGo, hx, Bool.false_eq_true, if_false] at hw
      refine ih ?_ w hw
      intro c hc
      rcases List.mem_cons.mp hc with h1 | h1
      · subst h1; simpa using hx
      · exact hacc c h1

theorem pySplitGo_subset : ∀ {l acc w : List Char} {c : Char},
    w ∈ pySplitGo acc l → c ∈ w → c ∈ l ∨ c ∈ acc := by
  intro l
  induction l with
  | nil =>
    intro acc w c hw hc
    by_cases h : acc.isEmpty
    · simp [pySplitGo, h] at hw
    · simp only [pySplitGo, h, Bool.false_eq_true, if_false,
        List.mem_singleton] at hw
      subst hw
      exact Or.inr (List.mem_reverse.mp hc)
  | cons x xs ih =>
    intro acc w c hw hc
    by_cases hx : isSpaceChar x
    · by_cases ha : acc.isEmpty
      · simp only [pySplitGo, hx, ha, if_true] at hw
        rcases ih hw hc with h1 | h1
        · exact Or.inl (List.mem_cons_of_mem _ h1)
        · simp at h1
      · simp only [pySplitGo, hx, ha, if_true, Bool.false_eq_true, if_false,
          List.mem_cons] at hw
        rcases hw with h1 | h1
        · subst h1
          exact Or.inr (List.mem_reverse.mp hc)
        · rcases ih h1 hc with h2 | h2
          · exact Or.inl (List.mem_cons_of_mem _ h2)
          · simp at h2
    · simp only [pySplitGo, hx, Bool.false_eq_true, if_false] at hw
      rcases ih hw hc with h1 | h1
      · exact Or.inl (List.mem_cons_of_mem _ h1)
      · rcases List.mem_cons.mp h1 with h2 | h2
        · exact Or.inl (h2 ▸ List.mem_cons_self _ _)
        · exact Or.inr h2

theorem pySplitGo_append {w : List Char}
    (hw : ∀ c ∈ w, isSpaceChar c = false) :
    ∀ (acc cs : List Char),
      pySplitGo acc (w ++ cs) = pySplitGo (w.reverse ++ acc) cs := by
  induction w with
  | nil => intro acc cs; simp
  | cons c w ih =>
    intro acc cs
    have hc : isSpaceChar c = false := hw c (List.mem_cons_self _ _)
    show pySplitGo acc (c :: (w ++ cs)) = _
    simp only [pySplitGo, hc, Bool.false_eq_true, if_false]
    rw [ih (fun d hd => hw d (List.mem_cons_of_mem _ hd)) (c :: acc) cs]
    congr 1
    simp [List.reverse_cons, List.append_assoc]

theorem joinWith_cons_cons (sep : Char) (w x : List Char)
    (ws : List (List Char)) :
    joinWith sep (w :: x :: ws) = w ++ sep :: joinWith sep (x :: ws) := rfl

theorem joinWith_ne_nil {ws : List (List Char)} (h0 : ws ≠ [])
    (h : ∀ w ∈ ws, w ≠ []) : joinWith ' ' ws ≠ [] := by
  cases ws with
  | nil => exact absurd rfl h0
  | cons w tail =>
    cases tail with
    | nil => exact h w (List.mem_cons_self _ _)
    | cons x rest =>
      rw [joinWith_cons_cons]
      cases w with
      | nil => simp
      | cons a w2 => simp

theorem pySplit_joinWith : ∀ {ws : List (List Char)},
    (∀ w ∈ ws, w ≠ [] ∧ ∀ c ∈ w, isSpaceChar c = false) →
    pySplit (joinWith ' ' ws) = ws := by
  intro ws
  induction ws with
  | nil => intro _; rfl
  | cons w tail ih =>
    intro h
    have hw := h w (List.mem_cons_self _ _)
    cases tail with
    | nil =>
      show pySplitGo [] (joinWith ' ' [w]) = [w]
      have hj : joinWith ' ' [w] = w := rfl
      rw [hj]
      have := pySplitGo_append hw.2 [] []
      simp only [List.append_nil] at this
      rw [this]
      simp only [pySplitGo]
      rw [if_neg (by simpa using hw.1)]
      simp
    | cons x rest =>
      show pySplitGo [] (joinWith ' ' (w :: x :: rest)) = _
      rw [joinWith_cons_cons]
      have := pySplitGo_append hw.2 [] (' ' :: joinWith ' ' (x :: rest))
      simp only [List.append_nil] at this
      rw [this]
      simp only [pySplitGo, show isSpaceChar ' ' = true from rfl, if_true]
      rw [if_neg (by simpa using hw.1)]
      rw [List.reverse_reverse]
      congr 1
      exact ih (fun u hu => h u (List.mem_cons_of_mem _ hu))

theorem mem_joinWith {c : Char} : ∀ {ws : List (List Char)},
    c ∈ joinWith ' ' ws → c = ' ' ∨ ∃ w ∈ ws, c ∈ w := by
  intro ws
  induction ws with
  | nil => intro h; simp [joinWith] at h
  | cons w tail ih =>
    intro h
    cases tail with
    | nil =>
      exact Or.inr ⟨w, List.mem_cons_self _ _, h⟩
    | cons x rest =>
      rw [joinWith_cons_cons, List.mem_append] at h
      rcases h with h1 | h1
      · exact Or.inr ⟨w, List.mem_cons_self _ _, h1⟩
      · rcases List.mem_cons.mp h1 with h2 | h2
        · exact Or.inl h2
        · rcases ih h2 with h3 | ⟨u, hu, hcu⟩
          · exact Or.inl h3
          · exact Or.inr ⟨u, List.mem_cons_of_mem _ hu, hcu⟩

theorem map_joinWith (f : Char → Char) (sep : Char) :
    ∀ ws : List (List Char),
      (joinWith sep ws).map f = joinWith (f sep) (ws.map (List.map f)) := by
  intro ws
  induction ws with
  | nil => rfl
  | cons w tail ih =>
    cases tail with
    | nil => rfl
    | cons x rest =>
      rw [joinWith_cons_cons]
      simp only [List.map_cons] at ih ⊢
      rw [joinWith_cons_cons, List.map_append, List.map_cons, ih]

theorem head_joinWith_not_space : ∀ {ws : List (List Char)},
    (∀ w ∈ ws, w ≠ [] ∧ ∀ c ∈ w, isSpaceChar c = false) →
    ∀ c, (joinWith ' ' ws).head? = some c → isSpaceChar c = false := by
  intro ws h c hc
  cases ws with
  | nil => simp [joinWith] at hc
  | cons w tail =>
    have hw := h w (List.mem_cons_self _ _)
    cases w with
    | nil => exact absurd rfl hw.1
    | cons a w2 =>
      cases tail with
      | nil =>
        have hac : a = c := by
          have hj : joinWith ' ' [a :: w2] = a :: w2 := rfl
          rw [hj] at hc
          simpa using hc
        rw [← hac]
        exact hw.2 a (List.mem_cons_self _ _)
      | cons x rest =>
        rw [joinWith_cons_cons] at hc
        have hac : a = c := by simpa using hc
        rw [← hac]
        exact hw.2 a (List.mem_cons_self _ _)

theorem getLast_joinWith_not_space : ∀ {ws : List (List Char)},
    (∀ w ∈ ws, w ≠ [] ∧ ∀ c ∈ w, isSpaceChar c = false) →
    ∀ c, (joinWith ' ' ws).getLast? = some c → isSpaceChar c = false := by
  intro ws
  induction ws with
  | nil => intro _ c hc; simp [joinWith] at hc
  | cons w tail ih =>
    intro h c hc
    have hw := h w (List.mem_cons_self _ _)
    cases tail with
    | nil =>
      have hj : joinWith ' ' [w] = w := rfl
      rw [hj] at hc
      have hcm : c ∈ w := by
        rcases List.mem_getLast?_eq_getLast (by simpa using hc) with ⟨hne, heq⟩
        exact heq ▸ List.getLast_mem hne
      exact hw.2 c hcm
    | cons x rest =>
      rw [joinWith_cons_cons, List.getLast?_append_cons] at hc
      have hx := h x (List.mem_cons_of_mem _ (List.mem_cons_self _ _))
      have hJ : joinWith ' ' (x :: rest) ≠ [] :=
        joinWith_ne_nil (by simp)
          (fun u hu => (h u (List.mem_cons_of_mem _ hu)).1)
      cases hJcase : joinWith ' ' (x :: rest) with
      | nil => exact absurd hJcase hJ
      | cons j js =>
        rw [hJcase, List.getLast?_cons_cons] at hc
        refine ih (fun u hu => h u (List.mem_cons_of_mem _ hu)) c ?_
        rw [hJcase]
        exact hc

theorem dropWhile_eq_self_head {p : Char → Bool} {l : List Char}
    (h : ∀ c, l.head? = some c → p c = false) : l.dropWhile p = l := by
  cases l with
  | nil => rfl
  | cons x xs =>
    have := h x rfl
    simp [List.dropWhile_cons, this]

theorem stripWS_joinWith {ws : List (List Char)}
    (h : ∀ w ∈ ws, w ≠ [] ∧ ∀ c ∈ w, isSpaceChar c = false) :
    stripWS (joinWith ' ' ws) = joinWith ' ' ws := by
  unfold stripWS
  rw [dropWhile_eq_self_head (head_joinWith_not_space h)]
  rw [dropWhile_eq_self_head (fun c hc => ?_), List.reverse_reverse]
  rw [List.head?_reverse] at hc
  exact getLast_joinWith_not_space h c hc

theorem normalizeKeyChars_idem {l : List Char} (h : ∀ c ∈ l, keepChar c = true) :
    normalizeKeyChars (normalizeKeyChars l) = normalizeKeyChars l := by
  have hwords : ∀ w ∈ pySplit l, w ≠ [] ∧ ∀ c ∈ w, isSpaceChar c = false :=
    pySplitGo_words (by simp)
  have hsub : ∀ w ∈ pySplit l, ∀ c ∈ w, c ∈ l := by
    intro w hw c hc
    rcases pySplitGo_subset hw hc with h1 | h1
    · exact h1
    · simp at h1
  have hfilter : (joinWith ' ' (pySplit l)).filter keepChar
      = joinWith ' ' (pySplit l) := by
    rw [List.filter_eq_self]
    intro c hc
    rcases mem_joinWith hc with h1 | ⟨w, hw, hcw⟩
    · subst h1; decide
    · exact h c (hsub w hw c hcw)
  have hmap : (joinWith ' ' (pySplit l)).map lcChar
      = joinWith ' ' ((pySplit l).map (List.map lcChar)) := by
    rw [map_joinWith]
    norm_num [show lcChar ' ' = ' ' from by decide]
  have hws2ok : ∀ w ∈ (pySplit l).map (List.map lcChar),
      w ≠ [] ∧ ∀ c ∈ w, isSpaceChar c = false := by
    intro w hw
    rcases List.mem_map.mp hw with ⟨w0, hw0, rfl⟩
    have h0 := hwords w0 hw0
    refine ⟨by simpa using h0.1, ?_⟩
    intro c hc
    rcases List.mem_map.mp hc with ⟨c0, hc0, rfl⟩
    exact lcChar_not_space (h0.2 c0 hc0)
  have ht : normalizeKeyChars l = joinWith ' ' ((pySplit l).map (List.map lcChar)) := by
    unfold normalizeKeyChars
    rw [hfilter, hmap, stripWS_joinWith hws2ok]
  have hchars2 : ∀ c ∈ joinWith ' ' ((pySplit l).map (List.map lcChar)),
      keepChar c = true ∧ lcChar c = c := by
    intro c hc
    rcases mem_joinWith hc with h1 | ⟨w, hw, hcw⟩
    · subst h1; exact ⟨by decide, by decide⟩
    · rcases List.mem_map.mp hw with ⟨w0, hw0, rfl⟩
      rcases List.mem_map.mp hcw with ⟨c0, hc0, rfl⟩
      exact ⟨lcChar_keep (h c0 (hsub w0 hw0 c0 hc0)), lcChar_lcChar c0⟩
  rw [ht]
  unfold normalizeKeyChars
  rw [pySplit_joinWith hws2ok]
  rw [List.filter_eq_self.mpr (fun c hc => (hchars2 c hc).1)]
  have hmapid : (joinWith ' ' ((pySplit l).map (List.map lcChar))).map lcChar
      = joinWith ' ' ((pySplit l).map (List.map lcChar)) := by
    rw [List.map_congr_left (fun c hc => (hchars2 c hc).2)]
    exact List.map_id _
  rw [hmapid]
  exact stripWS_joinWith hws2ok

/-- C5 counterexample: `_normalize_key` is not idempotent — removing a
disallowed character can leave two adjacent spaces, which a second
application collapses: `normalize "a ! b" = "a  b"` but
`normalize (normalize "a ! b") = "a b"`. -/
theorem C5_counterexample :
    _normalize_key (_normalize_key "a ! b") ≠ _normalize_key "a ! b" := by
  decide

/-- C5 (amended): `_normalize_key` is idempotent on inputs containing only
characters its character filter keeps (letters, digits, space, period,
hyphen, the Slovenian diacritics) — on arbitrary inputs the removal of
disallowed characters can create adjacent spaces collapsed only by a second
pass — and it is case- and whitespace-insensitive:
`normalize "Foo   BAR" = normalize "foo bar"`. -/
theorem C5_amended (s : String) (h : ∀ c ∈ s.data, keepChar c = true) :
    _normalize_key (_normalize_key s) = _normalize_key s ∧
    _normalize_key "Foo   BAR" = _normalize_key "foo bar" := by
  refine ⟨?_, by decide⟩
  unfold _normalize_key
  exact congrArg String.mk (normalizeKeyChars_idem h)

/-- C5 witness: a concrete instance of `C5_amended`. -/
theorem C5_amended_witness :
    (∀ c ∈ ("Rezultat 7.b" : String).data, keepChar c = true) ∧
    _normalize_key (_normalize_key "Rezultat 7.b") =
      _normalize_key "Rezultat 7.b" :=
  ⟨by decide, (C5_amended "Rezultat 7.b" (by decide)).1⟩

/-- C7 counterexample: the page-number phrase `stran 0` yields an extracted
page number of `0`, which is present but smaller than `1` — the regex
`\bstran\s*(\d+)\b` accepts the digit string `0`. -/
theorem C7_counterexample :
    extract_page_number_worker "stran 0" = some 0 ∧ (0 : Int) < 1 := by
  decide

/-- C7 (amended): an extracted page number — whether from an explicit
page-number phrase or from the bottom-strip digit scan — is always a
nonnegative integer (it is the value of a digit string, so `0` is possible
and `≥ 1` is not guaranteed). -/
theorem C7_amended :
    (∀ (text : String) (n : Int),
      extract_page_number_worker text = some n → 0 ≤ n) ∧
    (∀ (toks : List String) (n : Int),
      bottom_strip_page_number toks = some n → 0 ≤ n) := by
  constructor
  · intro text n h
    unfold extract_page_number_worker at h
    rcases hx : PAGE_NUMBER_KEYWORDS.findSome?
        (fun kw => pageSearchGo kw.data false text.data) with _ | m
    · rw [hx] at h; simp at h
    · rw [hx] at h
      simp only [Option.map_some'] at h
      have : n = Int.ofNat m := by
        injection h with h2
        exact h2.symm
      rw [this]
      exact Int.ofNat_nonneg m
  · intro toks n h
    unfold bottom_strip_page_number at h
    have hmem : n ∈ (toks.filter (fun t =>
        let s := stripWS t.data
        !s.isEmpty && s.all Char.isDigit && s.length ≤ 3)).map
      (fun t => Int.ofNat (natOfDigits (stripWS t.data))) := by
      rcases List.mem_getLast?_eq_getLast (Option.mem_def.mpr h) with ⟨hne, heq⟩
      exact heq ▸ List.getLast_mem hne
    rcases List.mem_map.mp hmem with ⟨t, _, hft⟩
    rw [← hft]
    exact Int.ofNat_nonneg _

/-- C7 witness: concrete instances of both parts of `C7_amended`. -/
theorem C7_amended_witness :
    extract_page_number_worker "stran 7" = some 7 ∧ (0 : Int) ≤ 7 ∧
    bottom_strip_page_number ["3"] = some 3 ∧ (0 : Int) ≤ 3 :=
  ⟨by decide, C7_amended.1 "stran 7" 7 (by decide), by decide,
   C7_amended.2 ["3"] 3 (by decide)⟩

theorem mem_insertRec {x y : PageRec} : ∀ {l : List PageRec},
    y ∈ insertRec x l ↔ y = x ∨ y ∈ l := by
  intro l
  induction l with
  | nil => simp [insertRec]
  | cons z zs ih =>
    by_cases h : recKeyLT x z
    · simp [insertRec, h]
    · simp only [insertRec, h, Bool.false_eq_true, if_false,
        List.mem_cons, ih]
      tauto

theorem insertRec_perm (x : PageRec) : ∀ (l : List PageRec),
    (insertRec x l).Perm (x :: l) := by
  intro l
  induction l with
  | nil => exact List.Perm.refl _
  | cons y ys ih =>
    by_cases h : recKeyLT x y
    · simp only [insertRec, h, if_true]
      exact List.Perm.refl _
    · simp only [insertRec, h, Bool.false_eq_true, if_false]
      exact (ih.cons y).trans (List.Perm.swap x y ys)

theorem foldl_insertRec_perm : ∀ (l acc : List PageRec),
    (l.foldl (fun acc x => insertRec x acc) acc).Perm (acc ++ l) := by
  intro l
  induction l with
  | nil => intro acc; simp
  | cons x xs ih =>
    intro acc
    have h1 := ih (insertRec x acc)
    have h2 : (insertRec x acc ++ xs).Perm (acc ++ x :: xs) := by
      refine ((insertRec_perm x acc).append_right xs).trans ?_
      exact List.perm_middle.symm
    exact h1.trans h2

theorem sortBucket_perm (arr : List PageRec) : (sortBucket arr).Perm arr := by
  have := foldl_insertRec_perm arr []
  simpa [sortBucket] using this

theorem recKeyLT_iff {a b : PageRec} :
    recKeyLT a b = true ↔ recKeyCmp a b = some Ordering.lt := by
  unfold recKeyLT
  exact decide_eq_true_iff

theorem effPage_le_of_not_recKeyLT {a b : PageRec}
    (h : recKeyLT a b = false) : effectivePage b ≤ effectivePage a := by
  by_cases h1 : effectivePage a < effectivePage b
  · exfalso
    have hlt : recKeyLT a b = true := by
      rw [recKeyLT_iff]
      unfold recKeyCmp
      rw [if_pos h1]
    rw [hlt] at h
    cases h
  · omega

theorem effPage_le_of_recKeyLT {a b : PageRec}
    (h : recKeyLT a b = true) : effectivePage a ≤ effectivePage b := by
  rw [recKeyLT_iff] at h
  unfold recKeyCmp at h
  by_cases h1 : effectivePage a < effectivePage b
  · omega
  · rw [if_neg h1] at h
    by_cases h2 : effectivePage b < effectivePage a
    · rw [if_pos h2] at h; cases h
    · omega

theorem pairwise_insertRec {x : PageRec} : ∀ {l : List PageRec},
    l.Pairwise (fun a b => effectivePage a ≤ effectivePage b) →
    (insertRec x l).Pairwise (fun a b => effectivePage a ≤ effectivePage b) := by
  intro l
  induction l with
  | nil => intro _; simp [insertRec]
  | cons y ys ih =>
    intro h
    rcases List.pairwise_cons.mp h with ⟨hy, hys⟩
    by_cases hlt : recKeyLT x y
    · simp only [insertRec, hlt, if_true]
      refine List.pairwise_cons.mpr ⟨?_, h⟩
      intro z hz
      rcases List.mem_cons.mp hz with h1 | h1
      · subst h1; exact effPage_le_of_recKeyLT hlt
      · exact le_trans (effPage_le_of_recKeyLT hlt) (hy z h1)
    · simp only [insertRec, hlt, Bool.false_eq_true, if_false]
      refine List.pairwise_cons.mpr ⟨?_, ih hys⟩
      intro z hz
      rcases mem_insertRec.mp hz with h1 | h1
      · subst h1
        exact effPage_le_of_not_recKeyLT (by simpa using hlt)
      · exact hy z h1

theorem foldl_insertRec_pairwise : ∀ (l acc : List PageRec),
    acc.Pairwise (fun a b => effectivePage a ≤ effectivePage b) →
    (l.foldl (fun acc x => insertRec x acc) acc).Pairwise
      (fun a b => effectivePage a ≤ effectivePage b) := by
  intro l
  induction l with
  | nil => intro acc h; simpa using h
  | cons x xs ih =>
    intro acc h
    exact ih (insertRec x acc) (pairwise_insertRec h)

theorem charListLt_cons_cons (x y : Char) (xs ys : List Char) :
    charListLt (x :: xs) (y :: ys)
      = if x == y then charListLt xs ys else decide (x < y) := rfl

theorem charListLt_asymm : ∀ {a b : List Char},
    charListLt a b = true → charListLt b a = false := by
  intro a
  induction a with
  | nil =>
    intro b h
    cases b with
    | nil => exact absurd h (by simp [charListLt])
    | cons y ys => rfl
  | cons x xs ih =>
    intro b h
    cases b with
    | nil => exact absurd h (by simp [charListLt])
    | cons y ys =>
      rw [charListLt_cons_cons] at h ⊢
      by_cases hxy : x = y
      · subst hxy
        simp only [beq_self_eq_true, if_true] at h ⊢
        exact ih h
      · have h1 : (x == y) = false := by simp [hxy]
        have h2 : (y == x) = false := by simp [Ne.symm hxy]
        simp only [h1, h2, Bool.false_eq_true, if_false,
          decide_eq_true_eq] at h ⊢
        simp [lt_asymm h]

theorem charListLt_irrefl (a : List Char) : charListLt a a = false := by
  cases h : charListLt a a
  · rfl
  · have h2 := charListLt_asymm h
    rw [h] at h2
    cases h2

theorem charListLt_trans : ∀ {a b c : List Char},
    charListLt a b = true → charListLt b c = true →
    charListLt a c = true := by
  intro a
  induction a with
  | nil =>
    intro b c h1 h2
    cases b with
    | nil => exact absurd h1 (by simp [charListLt])
    | cons y ys =>
      cases c with
      | nil => exact absurd h2 (by simp [charListLt])
      | cons z zs => simp [charListLt]
  | cons x xs ih =>
    intro b c h1 h2
    cases b with
    | nil => exact absurd h1 (by simp [charListLt])
    | cons y ys =>
      cases c with
      | nil => exact absurd h2 (by simp [charListLt])
      | cons z zs =>
        rw [charListLt_cons_cons] at h1 h2 ⊢
        by_cases hxy : x = y
        · subst hxy
          simp only [beq_self_eq_true, if_true] at h1
          by_cases hyz : x = z
          · subst hyz
            simp only [beq_self_eq_true, if_true] at h2 ⊢
            exact ih h1 h2
          · have hb : (x == z) = false := by simp [hyz]
            simp only [hb, Bool.false_eq_true, if_false] at h2 ⊢
            exact h2
        · have hb1 : (x == y) = false := by simp [hxy]
          simp only [hb1, Bool.false_eq_true, if_false,
            decide_eq_true_eq] at h1
          by_cases hyz : y = z
          · subst hyz
            simp only [hb1, Bool.false_eq_true, if_false,
              decide_eq_true_eq]
            exact h1
          · have hb2 : (y == z) = false := by simp [hyz]
            simp only [hb2, Bool.false_eq_true, if_false,
              decide_eq_true_eq] at h2
            have hxz : x < z := lt_trans h1 h2
            have hb3 : (x == z) = false := by simp [ne_of_lt hxz]
            simp only [hb3, Bool.false_eq_true, if_false,
              decide_eq_true_eq]
            exact hxz

theorem charListLt_eq_of_not_lt : ∀ {a b : List Char},
    charListLt a b = false → charListLt b a = false → a = b := by
  intro a
  induction a with
  | nil =>
    intro b h1 _
    cases b with
    | nil => rfl
    | cons y ys => exact absurd h1 (by simp [charListLt])
  | cons x xs ih =>
    intro b h1 h2
    cases b with
    | nil => exact absurd h2 (by simp [charListLt])
    | cons y ys =>
      rw [charListLt_cons_cons] at h1 h2
      by_cases hxy : x = y
      · subst hxy
        simp only [beq_self_eq_true, if_true] at h1 h2
        rw [ih h1 h2]
      · exfalso
        have hb1 : (x == y) = false := by simp [hxy]
        have hb2 : (y == x) = false := by simp [Ne.symm hxy]
        simp only [hb1, hb2, Bool.false_eq_true, if_false] at h1 h2
        exact hxy (le_antisymm (not_lt.mp (by simpa using h2))
          (not_lt.mp (by simpa using h1)))

theorem tokCmp_refl (a : Nat ⊕ String) : tokCmp a a = some Ordering.eq := by
  cases a with
  | inl x => simp [tokCmp]
  | inr x => simp [tokCmp, charListLt_irrefl]

theorem tokCmp_none_symm {a b : Nat ⊕ String} (h : tokCmp a b = none) :
    tokCmp b a = none := by
  cases a <;> cases b <;> simp [tokCmp] at h ⊢

theorem tokCmp_eq_iff {a b : Nat ⊕ String} :
    tokCmp a b = some Ordering.eq ↔ a = b := by
  constructor
  · intro h
    cases a with
    | inl x =>
      cases b with
      | inl y =>
        simp only [tokCmp, Option.some_inj] at h
        by_cases h1 : x < y
        · rw [if_pos h1] at h; cases h
        · rw [if_neg h1] at h
          by_cases h2 : y < x
          · rw [if_pos h2] at h; cases h
          · have hxy : x = y := by omega
            rw [hxy]
      | inr y => exact absurd h (by simp [tokCmp])
    | inr x =>
      cases b with
      | inl y => exact absurd h (by simp [tokCmp])
      | inr y =>
        simp only [tokCmp, Option.some_inj] at h
        by_cases h1 : charListLt x.data y.data = true
        · rw [if_pos h1] at h; cases h
        · rw [if_neg h1] at h
          by_cases h2 : charListLt y.data x.data = true
          · rw [if_pos h2] at h; cases h
          · have hd : x.data = y.data := charListLt_eq_of_not_lt
              (by simpa using h1) (by simpa using h2)
            rw [String.ext hd]
  · intro h
    rw [h]
    exact tokCmp_refl b

theorem tokCmp_gt_iff_lt {a b : Nat ⊕ String} :
    tokCmp a b = some Ordering.gt ↔ tokCmp b a = some Ordering.lt := by
  cases a with
  | inl x =>
    cases b with
    | inl y =>
      simp only [tokCmp, Option.some_inj]
      by_cases h1 : x < y
      · rw [if_pos h1, if_neg (by omega : ¬ y < x), if_pos h1]
        simp
      · rw [if_neg h1]
        by_cases h2 : y < x
        · rw [if_pos h2, if_pos h2]
          simp
        · rw [if_neg h2, if_neg h2, if_neg h1]
          simp
    | inr y => simp [tokCmp]
  | inr x =>
    cases b with
    | inl y => simp [tokCmp]
    | inr y =>
      simp only [tokCmp, Option.some_inj]
      by_cases h1 : charListLt x.data y.data = true
      · have h1n : ¬ charListLt y.data x.data = true := by
          simp [charListLt_asymm h1]
        rw [if_pos h1, if_neg h1n, if_pos h1]
        simp
      · rw [if_neg h1]
        by_cases h2 : charListLt y.data x.data = true
        · rw [if_pos h2, if_pos h2]
          simp
        · rw [if_neg h2, if_neg h2, if_neg h1]
          simp

theorem tokCmp_lt_trans {a b c : Nat ⊕ String}
    (h1 : tokCmp a b = some Ordering.lt)
    (h2 : tokCmp b c = some Ordering.lt) :
    tokCmp a c = some Ordering.lt := by
  cases a with
  | inl x =>
    cases b with
    | inr y => exact absurd h1 (by simp [tokCmp])
    | inl y =>
      cases c with
      | inr z => exact absurd h2 (by simp [tokCmp])
      | inl z =>
        simp only [tokCmp, Option.some_inj] at h1 h2 ⊢
        by_cases hxy : x < y
        · by_cases hyz : y < z
          · rw [if_pos (by omega : x < z)]
          · rw [if_neg hyz] at h2
            by_cases h3 : z < y
            · rw [if_pos h3] at h2; cases h2
            · rw [if_neg h3] at h2; cases h2
        · rw [if_neg hxy] at h1
          by_cases h3 : y < x
          · rw [if_pos h3] at h1; cases h1
          · rw [if_neg h3] at h1; cases h1
  | inr x =>
    cases b with
    | inl y => exact absurd h1 (by simp [tokCmp])
    | inr y =>
      cases c with
      | inl z => exact absurd h2 (by simp [tokCmp])
      | inr z =>
        simp only [tokCmp, Option.some_inj] at h1 h2 ⊢
        by_cases hxy : charListLt x.data y.data = true
        · by_cases hyz : charListLt y.data z.data = true
          · rw [if_pos (charListLt_trans hxy hyz)]
          · rw [if_neg hyz] at h2
            by_cases h3 : charListLt z.data y.data = true
            · rw [if_pos h3] at h2; cases h2
            · rw [if_neg h3] at h2; cases h2
        · rw [if_neg hxy] at h1
          by_cases h3 : charListLt y.data x.data = true
          · rw [if_pos h3] at h1; cases h1
          · rw [if_neg h3] at h1; cases h1

theorem keyListCmp_cons_cons (x y : Nat ⊕ String)
    (xs ys : List (Nat ⊕ String)) :
    keyListCmp (x :: xs) (y :: ys) =
      match tokCmp x y with
      | none => none
      | some Ordering.lt => some Ordering.lt
      | some Ordering.gt => some Ordering.gt
      | some Ordering.eq => keyListCmp xs ys := rfl

theorem keyListCmp_cons_of_eq {x y : Nat ⊕ String}
    {xs ys : List (Nat ⊕ String)} (h : tokCmp x y = some Ordering.eq) :
    keyListCmp (x :: xs) (y :: ys) = keyListCmp xs ys := by
  rw [keyListCmp_cons_cons, h]

theorem keyListCmp_refl : ∀ (a : List (Nat ⊕ String)),
    keyListCmp a a = some Ordering.eq := by
  intro a
  induction a with
  | nil => rfl
  | cons x xs ih =>
    rw [keyListCmp_cons_of_eq (tokCmp_refl x)]
    exact ih

theorem keyListCmp_eq_eq : ∀ {a b : List (Nat ⊕ String)},
    keyListCmp a b = some Ordering.eq → a = b := by
  intro a
  induction a with
  | nil =>
    intro b h
    cases b with
    | nil => rfl
    | cons y ys => exact absurd h (by simp [keyListCmp])
  | cons x xs ih =>
    intro b h
    cases b with
    | nil => exact absurd h (by simp [keyListCmp])
    | cons y ys =>
      rcases ht : tokCmp x y with _ | o
      · rw [keyListCmp_cons_cons, ht] at h
        exact absurd h (by simp)
      · cases o with
        | lt =>
          rw [keyListCmp_cons_cons, ht] at h
          exact absurd h (by simp)
        | gt =>
          rw [keyListCmp_cons_cons, ht] at h
          exact absurd h (by simp)
        | eq =>
          rw [keyListCmp_cons_of_eq ht] at h
          rw [tokCmp_eq_iff.mp ht, ih h]

theorem keyListCmp_gt_iff_lt : ∀ {a b : List (Nat ⊕ String)},
    keyListCmp a b = some Ordering.gt ↔ keyListCmp b a = some Ordering.lt := by
  intro a
  induction a with
  | nil =>
    intro b
    cases b with
    | nil => simp [keyListCmp]
    | cons y ys => simp [keyListCmp]
  | cons x xs ih =>
    intro b
    cases b with
    | nil => simp [keyListCmp]
    | cons y ys =>
      rcases ht : tokCmp x y with _ | o
      · rw [keyListCmp_cons_cons, ht,
          keyListCmp_cons_cons, tokCmp_none_symm ht]
        simp
      · cases o with
        | lt =>
          rw [keyListCmp_cons_cons, ht,
            keyListCmp_cons_cons, tokCmp_gt_iff_lt.mpr ht]
          simp
        | gt =>
          rw [keyListCmp_cons_cons, ht,
            keyListCmp_cons_cons, tokCmp_gt_iff_lt.mp ht]
          simp
        | eq =>
          have ht2 : tokCmp y x = some Ordering.eq :=
            tokCmp_eq_iff.mpr (tokCmp_eq_iff.mp ht).symm
          rw [keyListCmp_cons_of_eq ht, keyListCmp_cons_of_eq ht2]
          exact ih

theorem keyListCmp_lt_trans : ∀ {a b c : List (Nat ⊕ String)},
    keyListCmp a b = some Ordering.lt → keyListCmp b c = some Ordering.lt →
    (keyListCmp a c).isSome = true → keyListCmp a c = some Ordering.lt := by
  intro a
  induction a with
  | nil =>
    intro b c h1 h2 _
    cases b with
    | nil => exact absurd h1 (by simp [keyListCmp])
    | cons y ys =>
      cases c with
      | nil => exact absurd h2 (by simp [keyListCmp])
      | cons z zs => simp [keyListCmp]
  | cons x xs ih =>
    intro b c h1 h2 h3
    cases b with
    | nil => exact absurd h1 (by simp [keyListCmp])
    | cons y ys =>
      cases c with
      | nil => exact absurd h2 (by simp [keyListCmp])
      | cons z zs =>
        rcases hxy : tokCmp x y with _ | o1
        · rw [keyListCmp_cons_cons, hxy] at h1
          exact absurd h1 (by simp)
        · rcases hyz : tokCmp y z with _ | o2
          · rw [keyListCmp_cons_cons, hyz] at h2
            exact absurd h2 (by simp)
          · cases o1 with
            | gt =>
              rw [keyListCmp_cons_cons, hxy] at h1
              exact absurd h1 (by simp)
            | lt =>
              cases o2 with
              | gt =>
                rw [keyListCmp_cons_cons, hyz] at h2
                exact absurd h2 (by simp)
              | lt =>
                rw [keyListCmp_cons_cons, tokCmp_lt_trans hxy hyz]
              | eq =>
                have hyz2 : y = z := tokCmp_eq_iff.mp hyz
                subst hyz2
                rw [keyListCmp_cons_cons, hxy]
            | eq =>
              have hxy2 : x = y := tokCmp_eq_iff.mp hxy
              subst hxy2
              rw [keyListCmp_cons_of_eq hxy] at h1
              cases o2 with
              | gt =>
                rw [keyListCmp_cons_cons, hyz] at h2
                exact absurd h2 (by simp)
              | lt =>
                rw [keyListCmp_cons_cons, hyz]
              | eq =>
                have hxz2 : x = z := tokCmp_eq_iff.mp hyz
                subst hxz2
                rw [keyListCmp_cons_of_eq hyz] at h2
                rw [keyListCmp_cons_of_eq hyz] at h3 ⊢
                exact ih h1 h2 h3

theorem recKeyCmp_refl (a : PageRec) : recKeyCmp a a = some Ordering.eq := by
  unfold recKeyCmp
  rw [if_neg (lt_irrefl _), if_neg (lt_irrefl _)]
  exact keyListCmp_refl _

theorem recKeyCmp_eq_parts {a b : PageRec}
    (h : recKeyCmp a b = some Ordering.eq) :
    effectivePage a = effectivePage b ∧
      natural_sort_key a.pdf = natural_sort_key b.pdf := by
  unfold recKeyCmp at h
  by_cases h1 : effectivePage a < effectivePage b
  · rw [if_pos h1] at h; cases h
  · rw [if_neg h1] at h
    by_cases h2 : effectivePage b < effectivePage a
    · rw [if_pos h2] at h; cases h
    · rw [if_neg h2] at h
      exact ⟨by omega, keyListCmp_eq_eq h⟩

theorem recKeyCmp_congr_left {x y z : PageRec}
    (hp : effectivePage x = effectivePage y)
    (hk : natural_sort_key x.pdf = natural_sort_key y.pdf) :
    recKeyCmp x z = recKeyCmp y z := by
  unfold recKeyCmp
  rw [hp, hk]

theorem recKeyCmp_congr_right {x y z : PageRec}
    (hp : effectivePage y = effectivePage z)
    (hk : natural_sort_key y.pdf = natural_sort_key z.pdf) :
    recKeyCmp x y = recKeyCmp x z := by
  unfold recKeyCmp
  rw [hp, hk]

theorem recKeyLE_of_not_lt {x y : PageRec} (h : recKeyLT x y = false)
    (hs : (recKeyCmp x y).isSome = true) : recKeyLE y x := by
  unfold recKeyLE
  rcases ho : recKeyCmp x y with _ | o
  · rw [ho] at hs; cases hs
  · cases o with
    | lt =>
      exfalso
      have h2 := recKeyLT_iff.mpr ho
      rw [h2] at h
      cases h
    | eq =>
      right
      rcases recKeyCmp_eq_parts ho with ⟨hp, hk⟩
      rw [recKeyCmp_congr_left hp.symm hk.symm]
      exact recKeyCmp_refl x
    | gt =>
      left
      unfold recKeyCmp at ho ⊢
      by_cases h1 : effectivePage x < effectivePage y
      · rw [if_pos h1] at ho; cases ho
      · rw [if_neg h1] at ho
        by_cases h2 : effectivePage y < effectivePage x
        · rw [if_pos h2]
        · rw [if_neg h2] at ho
          rw [if_neg h2, if_neg h1]
          exact keyListCmp_gt_iff_lt.mp ho

theorem recKeyLE_trans {x y z : PageRec} (h1 : recKeyLE x y)
    (h2 : recKeyLE y z) (hs : (recKeyCmp x z).isSome = true) :
    recKeyLE x z := by
  unfold recKeyLE at h1 h2 ⊢
  rcases h1 with h1 | h1
  · rcases h2 with h2 | h2
    · left
      unfold recKeyCmp at h1 h2 hs ⊢
      by_cases a1 : effectivePage x < effectivePage y
      · by_cases a2 : effectivePage y < effectivePage z
        · rw [if_pos (by omega : effectivePage x < effectivePage z)]
        · rw [if_neg a2] at h2
          by_cases a3 : effectivePage z < effectivePage y
          · rw [if_pos a3] at h2; cases h2
          · rw [if_pos (by omega : effectivePage x < effectivePage z)]
      · rw [if_neg a1] at h1
        by_cases a4 : effectivePage y < effectivePage x
        · rw [if_pos a4] at h1; cases h1
        · rw [if_neg a4] at h1
          by_cases a2 : effectivePage y < effectivePage z
          · rw [if_pos (by omega : effectivePage x < effectivePage z)]
          · rw [if_neg a2] at h2
            by_cases a3 : effectivePage z < effectivePage y
            · rw [if_pos a3] at h2; cases h2
            · rw [if_neg a3] at h2
              have hx1 : ¬ effectivePage x < effectivePage z := by omega
              have hx2 : ¬ effectivePage z < effectivePage x := by omega
              rw [if_neg hx1, if_neg hx2] at hs ⊢
              exact keyListCmp_lt_trans h1 h2 hs
    · rcases recKeyCmp_eq_parts h2 with ⟨hp, hk⟩
      rw [← recKeyCmp_congr_right hp hk]
      exact Or.inl h1
  · rcases recKeyCmp_eq_parts h1 with ⟨hp, hk⟩
    rw [recKeyCmp_congr_left hp hk]
    exact h2

theorem pairwise_insertRec_key {x : PageRec} : ∀ {l : List PageRec},
    (∀ a ∈ x :: l, ∀ b ∈ x :: l, (recKeyCmp a b).isSome = true) →
    l.Pairwise recKeyLE → (insertRec x l).Pairwise recKeyLE := by
  intro l
  induction l with
  | nil => intro _ _; simp [insertRec]
  | cons y ys ih =>
    intro hc h
    rcases List.pairwise_cons.mp h with ⟨hy, hys⟩
    by_cases hlt : recKeyLT x y
    · simp only [insertRec, hlt, if_true]
      refine List.pairwise_cons.mpr ⟨?_, h⟩
      intro z hz
      have hxy : recKeyLE x y := Or.inl (recKeyLT_iff.mp hlt)
      rcases List.mem_cons.mp hz with hz1 | hz1
      · rw [hz1]
        exact hxy
      · refine recKeyLE_trans hxy (hy z hz1) ?_
        exact hc x (by simp) z (by simp [hz1])
    · simp only [insertRec, hlt, Bool.false_eq_true, if_false]
      refine List.pairwise_cons.mpr ⟨?_, ?_⟩
      · intro z hz
        rcases mem_insertRec.mp hz with hz1 | hz1
        · rw [hz1]
          refine recKeyLE_of_not_lt (by simpa using hlt) ?_
          exact hc x (by simp) y (by simp)
        · exact hy z hz1
      · refine ih ?_ hys
        intro a ha b hb
        have hmem : ∀ c, c ∈ x :: ys → c ∈ x :: y :: ys := by
          intro c hcm
          rcases List.mem_cons.mp hcm with hcm1 | hcm1
          · simp [hcm1]
          · simp [hcm1]
        exact hc a (hmem a ha) b (hmem b hb)

theorem foldl_insertRec_pairwise_key (arr : List PageRec)
    (hcomp : allComparable arr) :
    ∀ (l acc : List PageRec), (∀ a ∈ l, a ∈ arr) → (∀ a ∈ acc, a ∈ arr) →
    acc.Pairwise recKeyLE →
    (l.foldl (fun acc x => insertRec x acc) acc).Pairwise recKeyLE := by
  intro l
  induction l with
  | nil => intro acc _ _ h; simpa using h
  | cons x xs ih =>
    intro acc hl hacc h
    show (xs.foldl (fun acc x => insertRec x acc)
        (insertRec x acc)).Pairwise recKeyLE
    refine ih (insertRec x acc)
      (fun a ha => hl a (List.mem_cons_of_mem _ ha)) ?_ ?_
    · intro a ha
      rcases mem_insertRec.mp ha with ha1 | ha1
      · rw [ha1]
        exact hl x (List.mem_cons_self _ _)
      · exact hacc a ha1
    · refine pairwise_insertRec_key ?_ h
      intro a ha b hb
      have hmem : ∀ c, c ∈ x :: acc → c ∈ arr := by
        intro c hcm
        rcases List.mem_cons.mp hcm with hcm1 | hcm1
        · rw [hcm1]
          exact hl x (List.mem_cons_self _ _)
        · exact hacc c hcm1
      exact hcomp a (hmem a ha) b (hmem b hb)

theorem sortBucket_pairwise_key (arr : List PageRec)
    (hcomp : allComparable arr) : (sortBucket arr).Pairwise recKeyLE := by
  unfold sortBucket
  exact foldl_insertRec_pairwise_key arr hcomp arr [] (fun a ha => ha)
    (by intro a ha; simp at ha) (by simp)

/-- Concrete bucket members for the C8 example from the claim, with page
numbers 3, 1, none, 2. -/
def pageRecP3 : PageRec := ⟨"g", "ff", some 3, "scan_3.pdf"⟩

/-- Page 1 member of the C8 example. -/
def pageRecP1 : PageRec := ⟨"g", "ff", some 1, "scan_1.pdf"⟩

/-- Unnumbered member of the C8 example. -/
def pageRecPN : PageRec := ⟨"g", "ff", none, "scan_x.pdf"⟩

/-- Page 2 member of the C8 example. -/
def pageRecP2 : PageRec := ⟨"g", "ff", some 2, "scan_2.pdf"⟩

/-- Tied-page member with file `scan_10.pdf` (numeric token 10), for the
tie-break example. -/
def pageRecP1Big : PageRec := ⟨"g", "ff", some 1, "scan_10.pdf"⟩

/-- Tied-page member with file `scan_2.pdf` (numeric token 2), for the
tie-break example. -/
def pageRecP1Small : PageRec := ⟨"g", "ff", some 1, "scan_2.pdf"⟩

/-- Tied-page member whose natural key starts with a number:
the key of `1.pdf` is `[1, ".pdf"]`. -/
def mixedRecNum : PageRec := ⟨"g", "ff", some 1, "1.pdf"⟩

/-- Tied-page member whose natural key starts with a string:
the key of `a.pdf` is `["a.pdf"]`. -/
def mixedRecStr : PageRec := ⟨"g", "ff", some 1, "a.pdf"⟩

/-- C8 counterexample: two records with tied page numbers whose natural
sort keys are `[1, ".pdf"]` and `["a.pdf"]`.  Ordering them requires the
`int`-vs-`str` token comparison on which the Python sort raises
`TypeError` (`recKeyCmp` returns `none` in both directions), so such a
bucket is not sorted at all — the claimed ordering does not exist for
it. -/
theorem C8_counterexample :
    effectivePage mixedRecNum = effectivePage mixedRecStr ∧
    recKeyCmp mixedRecNum mixedRecStr = none ∧
    recKeyCmp mixedRecStr mixedRecNum = none := by
  decide

/-- C8 (amended): within each bucket the members are sorted by the key
(page number when present, else the sentinel `10 ** 9`, then the natural
numeric-aware filename key), *provided* no comparison of two tied records
meets an `int`-vs-`str` token pair — on such buckets the Python sort
raises `TypeError` instead of sorting.  The result is always a permutation
ordered by effective page (unnumbered records last), and under the proviso
it is also ordered by the full key, i.e. tied pages are ordered by the
natural filename key.  Pages `[3, 1, none, 2]` sort to `[1, 2, 3, none]`,
and tied pages with files `scan_10.pdf`, `scan_2.pdf` order `scan_2.pdf`
first (2 < 10 numerically, although "10" < "2" as strings). -/
theorem C8_bucket_ordering :
    (∀ arr : List PageRec,
      (sortBucket arr).Perm arr ∧
      (sortBucket arr).Pairwise
        (fun a b => effectivePage a ≤ effectivePage b)) ∧
    (∀ arr : List PageRec, allComparable arr →
      (sortBucket arr).Pairwise recKeyLE) ∧
    sortBucket [pageRecP3, pageRecP1, pageRecPN, pageRecP2] =
      [pageRecP1, pageRecP2, pageRecP3, pageRecPN] ∧
    sortBucket [pageRecP1Big, pageRecP3, pageRecP1Small, pageRecPN,
        pageRecP2] =
      [pageRecP1Small, pageRecP1Big, pageRecP2, pageRecP3, pageRecPN] := by
  refine ⟨fun arr => ⟨sortBucket_perm arr,
      foldl_insertRec_pairwise arr [] (by simp)⟩,
    sortBucket_pairwise_key, by decide, by decide⟩

/-- C8 witness: the tie-exercising bucket satisfies the comparability
proviso and `C8_bucket_ordering` orders it by the full key. -/
theorem C8_bucket_ordering_witness :
    allComparable [pageRecP1Big, pageRecP3, pageRecP1Small, pageRecPN,
      pageRecP2] ∧
    (sortBucket [pageRecP1Big, pageRecP3, pageRecP1Small, pageRecPN,
      pageRecP2]).Pairwise recKeyLE :=
  ⟨by decide,
   C8_bucket_ordering.2.1 [pageRecP1Big, pageRecP3, pageRecP1Small,
     pageRecPN, pageRecP2] (by decide)⟩

/-- The grouping invariant: every record in a bucket has the same leading
group-key component as the bucket key (which is the full group key of the
first member). -/
def bucketsLeadingInv (bs : List (String × List PageRec)) : Prop :=
  ∀ b ∈ bs, ∀ r ∈ b.2, leadingComponent r.group = leadingComponent b.1

theorem bucketMatches_leading {r : PageRec} {arr : List PageRec}
    (h : bucketMatches r arr = true) :
    ∃ a0 tail, arr = a0 :: tail ∧
      leadingComponent r.group = leadingComponent a0.group := by
  cases arr with
  | nil => simp [bucketMatches] at h
  | cons a0 tail =>
    refine ⟨a0, tail, rfl, ?_⟩
    simp only [bucketMatches, Bool.and_eq_true, beq_iff_eq] at h
    exact h.2

theorem findBucket_inv {r : PageRec} : ∀ {bs bs2 : List (String × List PageRec)},
    bucketsLeadingInv bs → findBucket r bs = some bs2 →
    bucketsLeadingInv bs2 := by
  intro bs
  induction bs with
  | nil => intro bs2 _ h2; simp [findBucket] at h2
  | cons b rest ih =>
    intro bs2 hinv h2
    obtain ⟨k, arr⟩ := b
    by_cases hm : bucketMatches r arr
    · simp only [findBucket, hm, if_true, Option.some_inj] at h2
      subst h2
      intro b2 hb2 s hs
      rcases List.mem_cons.mp hb2 with h3 | h3
      · subst h3
        rcases List.mem_append.mp hs with h4 | h4
        · exact hinv (k, arr) (List.mem_cons_self _ _) s h4
        · have hr : s = r := by simpa using h4
          subst hr
          rcases bucketMatches_leading hm with ⟨a0, tail, harr, hlead⟩
          have ha0 : a0 ∈ arr := harr ▸ List.mem_cons_self _ _
          rw [hlead]
          exact hinv (k, arr) (List.mem_cons_self _ _) a0 ha0
      · exact hinv b2 (List.mem_cons_of_mem _ h3) s hs
    · simp only [findBucket, hm, Bool.false_eq_true, if_false] at h2
      rcases hrec : findBucket r rest with _ | rest2
      · rw [hrec] at h2; cases h2
      · rw [hrec] at h2
        have hb2 : (k, arr) :: rest2 = bs2 := by
          have h3 : some ((k, arr) :: rest2) = some bs2 := h2
          exact Option.some.inj h3
        subst hb2
        have hrestinv : bucketsLeadingInv rest :=
          fun b3 hb3 => hinv b3 (List.mem_cons_of_mem _ hb3)
        have hrest2 := ih hrestinv hrec
        intro b2 hb2 s hs
        rcases List.mem_cons.mp hb2 with h3 | h3
        · subst h3
          exact hinv (k, arr) (List.mem_cons_self _ _) s hs
        · exact hrest2 b2 h3 s hs

theorem setdefaultAppend_inv {gid : String} {r : PageRec}
    (hg : r.group = gid) : ∀ {bs : List (String × List PageRec)},
    bucketsLeadingInv bs → bucketsLeadingInv (setdefaultAppend gid r bs) := by
  intro bs
  induction bs with
  | nil =>
    intro _ b hb s hs
    simp only [setdefaultAppend, List.mem_singleton] at hb
    subst hb
    have hsr : s = r := by simpa using hs
    subst hsr
    rw [hg]
  | cons b rest ih =>
    obtain ⟨k, arr⟩ := b
    intro hinv b2 hb2 s hs
    by_cases hk : k == gid
    · simp only [setdefaultAppend, hk, if_true] at hb2
      rcases List.mem_cons.mp hb2 with h3 | h3
      · subst h3
        rcases List.mem_append.mp hs with h4 | h4
        · exact hinv (k, arr) (List.mem_cons_self _ _) s h4
        · have hsr : s = r := by simpa using h4
          subst hsr
          have hkg : k = gid := by simpa using hk
          rw [hg, hkg]
      · exact hinv b2 (List.mem_cons_of_mem _ h3) s hs
    · simp only [setdefaultAppend, hk, Bool.false_eq_true, if_false] at hb2
      rcases List.mem_cons.mp hb2 with h3 | h3
      · subst h3
        exact hinv (k, arr) (List.mem_cons_self _ _) s hs
      · have hrestinv : bucketsLeadingInv rest :=
          fun b3 hb3 => hinv b3 (List.mem_cons_of_mem _ hb3)
        exact ih hrestinv b2 h3 s hs

theorem placeRecord_inv {bs : List (String × List PageRec)} {r : PageRec}
    (hinv : bucketsLeadingInv bs) : bucketsLeadingInv (placeRecord bs r) := by
  unfold placeRecord
  rcases hf : findBucket r bs with _ | bs2
  · exact setdefaultAppend_inv rfl hinv
  · exact findBucket_inv hinv hf

theorem groupRecords_inv (results : List PageRec) :
    bucketsLeadingInv (groupRecords results) := by
  unfold groupRecords
  suffices h : ∀ (l : List PageRec) (bs : List (String × List PageRec)),
      bucketsLeadingInv bs → bucketsLeadingInv (l.foldl placeRecord bs) by
    exact h results [] (by intro b hb; simp at hb)
  intro l
  induction l with
  | nil => intro bs h; exact h
  | cons x xs ih => intro bs h; exact ih (placeRecord bs x) (placeRecord_inv h)

/-- First record of the C1 counterexample: group key `pogodba__x`, header
hash `00000` (twenty zero bits). -/
def cxRecA : PageRec := ⟨"pogodba__x", "00000", none, "a.pdf"⟩

/-- Second record of the C1 counterexample: the same full group key but
header hash `fffff`, twenty bits away from the hash of `cxRecA`. -/
def cxRecB : PageRec := ⟨"pogodba__x", "fffff", none, "b.pdf"⟩

/-- C1 counterexample: two records whose header hashes are Hamming distance
20 apart — beyond the threshold 18 — nevertheless land in the *same*
bucket, because the second record falls through to
`buckets.setdefault(gid, []).append(r)` and its full group key equals the
key of the existing bucket.  This refutes the claim that when either
condition fails the two records land in different buckets. -/
theorem C1_counterexample :
    PHASH_DISTANCE_THRESHOLD < hamming cxRecA.header_hash cxRecB.header_hash ∧
    ∃ b ∈ groupRecords [cxRecA, cxRecB], cxRecA ∈ b.2 ∧ cxRecB ∈ b.2 := by
  decide

/-- C1 (amended): bucket membership is decided against only the *first*
member of a bucket (same leading group-key component and Hamming distance at most
18), and a record that matches no bucket is appended to the bucket keyed by
its full group key — so two records in one bucket always share the leading
(document-type) component of their group keys, but a bounded pairwise
Hamming distance is neither guaranteed nor required for sharing a
bucket. -/
theorem C1_amended (results : List PageRec) (b : String × List PageRec)
    (hb : b ∈ groupRecords results) (r s : PageRec)
    (hr : r ∈ b.2) (hs : s ∈ b.2) :
    leadingComponent r.group = leadingComponent s.group := by
  have hinv := groupRecords_inv results
  rw [hinv b hb r hr, hinv b hb s hs]

/-- C1 witness: a concrete instance of `C1_amended`. -/
theorem C1_amended_witness :
    leadingComponent cxRecA.group = leadingComponent cxRecB.group :=
  C1_amended [cxRecA, cxRecB] ("pogodba__x", [cxRecA, cxRecB]) (by decide)
    cxRecA cxRecB (by decide) (by decide)

/-- Modelled from the spec, its selection rule: the first element of the list
attaining the maximum year (earlier elements win ties). -/
def firstMaxByYear : List (String × Nat) → Option (String × Nat)
  | [] => none
  | x :: xs =>
      match firstMaxByYear xs with
      | none => some x
      | some y => if y.2 > x.2 then some y else some x

/-- Left-biased maximum of two optional dated entries: the second argument
wins only with a strictly larger year. -/
def combineMax : Option (String × Nat) → Option (String × Nat) →
    Option (String × Nat)
  | none, b => b
  | some a, none => some a
  | some a, some b => if b.2 > a.2 then some b else some a

theorem firstMaxByYear_cons (x : String × Nat) (xs : List (String × Nat)) :
    firstMaxByYear (x :: xs) = combineMax (some x) (firstMaxByYear xs) := by
  cases h : firstMaxByYear xs <;> simp [firstMaxByYear, combineMax, h]

theorem firstMaxByYear_isSome (x : String × Nat) (xs : List (String × Nat)) :
    (firstMaxByYear (x :: xs)).isSome = true := by
  rw [firstMaxByYear_cons]
  cases firstMaxByYear xs with
  | none => rfl
  | some y =>
    show (if y.2 > x.2 then some y else some x).isSome = true
    split <;> rfl

theorem combineMax_assoc (a b c : Option (String × Nat)) :
    combineMax (combineMax a b) c = combineMax a (combineMax b c) := by
  rcases a with _ | a
  · rfl
  · rcases b with _ | b
    · rfl
    · rcases c with _ | c
      · show combineMax (if b.2 > a.2 then some b else some a) none
            = combineMax (some a) (combineMax (some b) none)
        by_cases h : b.2 > a.2 <;> simp [combineMax, h]
      · by_cases h1 : b.2 > a.2 <;> by_cases h2 : c.2 > b.2 <;>
          by_cases h3 : c.2 > a.2 <;>
          simp only [combineMax, h1, h2, h3, if_true, if_false] <;>
          first
            | rfl
            | (exfalso; omega)

theorem insertDateDesc_head (x : String × Nat) (l : List (String × Nat)) :
    (insertDateDesc x l).head? = combineMax l.head? (some x) := by
  cases l with
  | nil => rfl
  | cons y ys =>
    show (if x.2 > y.2 then x :: y :: ys else y :: insertDateDesc x ys).head?
        = if x.2 > y.2 then some x else some y
    split <;> rfl

theorem foldl_insertDateDesc_head : ∀ (l acc : List (String × Nat)),
    (l.foldl (fun acc x => insertDateDesc x acc) acc).head? =
      combineMax acc.head? (firstMaxByYear l) := by
  intro l
  induction l with
  | nil =>
    intro acc
    cases acc <;> rfl
  | cons x xs ih =>
    intro acc
    show (xs.foldl (fun acc x => insertDateDesc x acc) (insertDateDesc x acc)).head? = _
    rw [ih (insertDateDesc x acc), insertDateDesc_head, combineMax_assoc,
      firstMaxByYear_cons]

theorem sortDatesDesc_head (l : List (String × Nat)) :
    (sortDatesDesc l).head? = firstMaxByYear l := by
  unfold sortDatesDesc
  rw [foldl_insertDateDesc_head l []]
  rfl

theorem firstMaxByYear_spec : ∀ {l : List (String × Nat)} {p : String × Nat},
    firstMaxByYear l = some p →
    p ∈ l ∧ (∀ q ∈ l, q.2 ≤ p.2) ∧
      ∃ i, ∃ hi : i < l.length, l.get ⟨i, hi⟩ = p ∧
        ∀ j (hj : j < l.length), j < i → (l.get ⟨j, hj⟩).2 < p.2 := by
  intro l
  induction l with
  | nil => intro p h; simp [firstMaxByYear] at h
  | cons x xs ih =>
    intro p h
    rw [firstMaxByYear_cons] at h
    rcases hxs : firstMaxByYear xs with _ | y
    · rw [hxs] at h
      have hxp : x = p := Option.some.inj h
      subst hxp
      have hnil : xs = [] := by
        cases hx2 : xs with
        | nil => rfl
        | cons z zs =>
          have := firstMaxByYear_isSome z zs
          rw [← hx2, hxs] at this
          cases this
      subst hnil
      refine ⟨List.mem_cons_self _ _, ?_, 0, by simp, rfl, ?_⟩
      · intro q hq
        have : q = x := by simpa using hq
        subst this
        exact le_refl _
      · intro j hj hj0
        omega
    · rw [hxs] at h
      have h2 : (if y.2 > x.2 then some y else some x) = some p := h
      rcases ih hxs with ⟨hymem, hymax, i, hi, hget, hfirst⟩
      by_cases hyx : y.2 > x.2
      · rw [if_pos hyx] at h2
        have hyp : y = p := Option.some.inj h2
        subst hyp
        refine ⟨List.mem_cons_of_mem _ hymem, ?_, i + 1, by simpa using hi, ?_, ?_⟩
        · intro q hq
          rcases List.mem_cons.mp hq with h1 | h1
          · subst h1; omega
          · exact hymax q h1
        · simpa using hget
        · intro j hj hji
          cases j with
          | zero =>
            show x.2 < y.2
            exact hyx
          | succ j2 =>
            have hj2 : j2 < xs.length := by simpa using hj
            have := hfirst j2 hj2 (by omega)
            simpa using this
      · rw [if_neg hyx] at h2
        have hxp : x = p := Option.some.inj h2
        subst hxp
        refine ⟨List.mem_cons_self _ _, ?_, 0, by simp, rfl, ?_⟩
        · intro q hq
          rcases List.mem_cons.mp hq with h1 | h1
          · subst h1; exact le_refl _
          · have := hymax q h1
            omega
        · intro j hj hj0
          omega

/-- C6: when at least one date validates, the extractor returns the entry
of `found_dates` with the maximum normalised year, and among entries of
that maximal year the first one found during pattern scanning. -/
theorem C6_max_year (currentDate : String) (currentYear : Nat)
    (text : String) (h : found_dates currentYear text ≠ []) :
    ∃ p ∈ found_dates currentYear text,
      extract_date_enhanced currentDate currentYear text = p.1 ∧
      (∀ q ∈ found_dates currentYear text, q.2 ≤ p.2) ∧
      ∃ i, ∃ hi : i < (found_dates currentYear text).length,
        (found_dates currentYear text).get ⟨i, hi⟩ = p ∧
        ∀ j (hj : j < (found_dates currentYear text).length), j < i →
          ((found_dates currentYear text).get ⟨j, hj⟩).2 < p.2 := by
  rcases hfm : firstMaxByYear (found_dates currentYear text) with _ | p
  · exfalso
    cases hfd : found_dates currentYear text with
    | nil => exact h hfd
    | cons x xs =>
      have := firstMaxByYear_isSome x xs
      rw [← hfd, hfm] at this
      cases this
  · rcases firstMaxByYear_spec hfm with ⟨hmem, hmax, hidx⟩
    refine ⟨p, hmem, ?_, hmax, hidx⟩
    unfold extract_date_enhanced
    rw [sortDatesDesc_head, hfm]

/-- C6 witness: a concrete instance of `C6_max_year` on a text with dates
in the years 2020 and 2019. -/
theorem C6_max_year_witness :
    found_dates 2026 "3.4.2020 5.6.2019" ≠ [] ∧
    ∃ p ∈ found_dates 2026 "3.4.2020 5.6.2019",
      extract_date_enhanced "x" 2026 "3.4.2020 5.6.2019" = p.1 ∧
      (∀ q ∈ found_dates 2026 "3.4.2020 5.6.2019", q.2 ≤ p.2) ∧
      ∃ i, ∃ hi : i < (found_dates 2026 "3.4.2020 5.6.2019").length,
        (found_dates 2026 "3.4.2020 5.6.2019").get ⟨i, hi⟩ = p ∧
        ∀ j (hj : j < (found_dates 2026 "3.4.2020 5.6.2019").length), j < i →
          ((found_dates 2026 "3.4.2020 5.6.2019").get ⟨j, hj⟩).2 < p.2 :=
  ⟨by decide, C6_max_year "x" 2026 "3.4.2020 5.6.2019" (by decide)⟩

theorem validateMatch_fst_ne_empty {cy : Nat} {d m y : String}
    {s : String} {yr : Nat} (h : validateMatch cy d m y = some (s, yr)) :
    s ≠ "" := by
  unfold validateMatch at h
  by_cases h1 : 1900 ≤ normalize_year y ∧ normalize_year y ≤ cy + 1
  · rw [if_pos h1] at h
    by_cases h2 : 1 ≤ natOfDigits m.data ∧ natOfDigits m.data ≤ 12 ∧
        1 ≤ natOfDigits d.data ∧ natOfDigits d.data ≤ 31
    · rw [if_pos h2] at h
      have hs : zfill2 d ++ "-" ++ zfill2 m ++ "-" ++
          decRepr (normalize_year y) = s := (Prod.mk.injEq _ _ _ _ ▸
            Option.some.inj h).1
      intro hemp
      rw [hemp] at hs
      have hlen := congrArg String.length hs
      simp only [String.length_append] at hlen
      have hdash : ("-" : String).length = 1 := rfl
      have hz : ("" : String).length = 0 := rfl
      rw [hdash, hz] at hlen
      omega
    · rw [if_neg h2] at h; cases h
  · rw [if_neg h1] at h; cases h

theorem found_dates_fst_ne_empty {cy : Nat} {t : String} {q : String × Nat}
    (h : q ∈ found_dates cy t) : q.1 ≠ "" := by
  unfold found_dates at h
  rcases List.mem_flatMap.mp h with ⟨ip, _, hq⟩
  rcases List.mem_filterMap.mp hq with ⟨m, _, hv⟩
  obtain ⟨s, yr⟩ := q
  have hv2 : validateMatch cy (matchToDMY ip.1 m).1 (matchToDMY ip.1 m).2.1
      (matchToDMY ip.1 m).2.2 = some (s, yr) := hv
  exact validateMatch_fst_ne_empty hv2

theorem extract_date_cases (cd : String) (cy : Nat) (t : String) :
    (found_dates cy t = [] ∧ extract_date_enhanced cd cy t = cd) ∨
    (∃ p ∈ found_dates cy t, extract_date_enhanced cd cy t = p.1) := by
  rcases hfm : firstMaxByYear (found_dates cy t) with _ | p
  · left
    have hnil : found_dates cy t = [] := by
      cases hfd : found_dates cy t with
      | nil => rfl
      | cons x xs =>
        have := firstMaxByYear_isSome x xs
        rw [← hfd, hfm] at this
        cases this
    refine ⟨hnil, ?_⟩
    unfold extract_date_enhanced
    rw [sortDatesDesc_head, hfm]
  · right
    rcases firstMaxByYear_spec hfm with ⟨hmem, _, _⟩
    refine ⟨p, hmem, ?_⟩
    unfold extract_date_enhanced
    rw [sortDatesDesc_head, hfm]

/-- C3 counterexample: with the current date `12-10-2026`, a document that
*genuinely contains* the current date (`Ljubljana, 12.10.2026` validates to
`12-10-2026`) still triggers the targeted-region re-OCR fallback, because
the trigger compares the extraction result against the current-date string —
the fallback-to-today outcome is the very same string as a genuine match of
the current date, so the two are not distinguishable. -/
theorem C3_counterexample :
    found_dates 2026 "Ljubljana, 12.10.2026" ≠ [] ∧
    extract_date_enhanced "12-10-2026" 2026 "Ljubljana, 12.10.2026" =
      "12-10-2026" ∧
    targeted_ocr_fallback_triggered "12-10-2026" 2026
      "Ljubljana, 12.10.2026" = true := by
  decide

/-- C3 (amended): the fallback-to-today sentinel is the formatted current
date string itself.  The targeted re-OCR fallback is triggered exactly when
the whole-page extraction returns that string — which happens both when no
date validated (the genuine fallback) and when the best genuine match *is*
the current date — so the caller cannot distinguish the two outcomes. -/
theorem C3_amended (cd : String) (cy : Nat) (t : String) :
    (found_dates cy t = [] →
      targeted_ocr_fallback_triggered cd cy t = true) ∧
    (targeted_ocr_fallback_triggered cd cy t = true ↔
      extract_date_enhanced cd cy t = cd) := by
  have hiff : targeted_ocr_fallback_triggered cd cy t = true ↔
      extract_date_enhanced cd cy t = cd := by
    unfold targeted_ocr_fallback_triggered
    constructor
    · intro ht
      by_cases he : extract_date_enhanced cd cy t = cd
      · exact he
      · exfalso
        rcases extract_date_cases cd cy t with ⟨_, hcd⟩ | ⟨p, hp, hpe⟩
        · exact he hcd
        · have hne : extract_date_enhanced cd cy t ≠ "" := by
            rw [hpe]
            exact found_dates_fst_ne_empty hp
          rw [if_pos ⟨hne, he⟩] at ht
          cases ht
    · intro he
      rw [if_neg]
      intro hcon
      exact hcon.2 he
  refine ⟨?_, hiff⟩
  intro hempty
  rw [hiff]
  unfold extract_date_enhanced
  rw [hempty]
  rfl

/-- C3 witness: a concrete instance of `C3_amended` on empty text (no date
validates, the fallback fires). -/
theorem C3_amended_witness :
    found_dates 2020 "" = [] ∧
    targeted_ocr_fallback_triggered "01-01-2020" 2020 "" = true :=
  ⟨by decide, (C3_amended "01-01-2020" 2020 "").1 (by decide)⟩

/-- C2 counterexample: the claimed rule `year < 50 → +2000 else +1900`
fails at the boundary — for year field `50` the code computes `2050`
(`50 > 50` is false, so it adds 2000), not `1950`; and the claimed example
input `05/09/23` matches *no* date pattern (two-digit years are only
accepted by the dotted pattern), so extraction falls back to the current date
instead of returning `05-09-2023`. -/
theorem C2_counterexample :
    normalize_year "50" ≠ 1950 ∧
    extract_date_enhanced "01-01-2000" 2026 "05/09/23" = "01-01-2000" := by
  decide

/-- C2 (amended): a two-digit year field is normalised by
`> 50 → +1900, ≤ 50 → +2000` (so `50` becomes 2050 and is then rejected as
beyond `currentYear+1`); a validated match always has its normalised year
within `[1900, currentYear+1]` (months/days within `[1,12]`/`[1,31]` are
enforced by the same guard); and the dotted two-digit-year input
`05.09.23` yields `05-09-2023`, while the slash form matches no pattern. -/
theorem C2_amended (cy : Nat) (day month year : String)
    (h2 : year.length = 2) :
    (natOfDigits year.data > 50 →
      normalize_year year = natOfDigits year.data + 1900) ∧
    (natOfDigits year.data ≤ 50 →
      normalize_year year = natOfDigits year.data + 2000) ∧
    (∀ s yr, validateMatch cy day month year = some (s, yr) →
      1900 ≤ yr ∧ yr ≤ cy + 1 ∧ yr = normalize_year year ∧
      1 ≤ natOfDigits month.data ∧ natOfDigits month.data ≤ 12 ∧
      1 ≤ natOfDigits day.data ∧ natOfDigits day.data ≤ 31) ∧
    extract_date_enhanced "01-01-2000" 2026 "05.09.23" = "05-09-2023" := by
  refine ⟨?_, ?_, ?_, by decide⟩
  · intro hgt
    unfold normalize_year
    rw [if_pos h2, if_pos hgt]
  · intro hle
    unfold normalize_year
    rw [if_pos h2, if_neg (by omega)]
  · intro s yr hv
    unfold validateMatch at hv
    by_cases hr : 1900 ≤ normalize_year year ∧ normalize_year year ≤ cy + 1
    · rw [if_pos hr] at hv
      by_cases hmd : 1 ≤ natOfDigits month.data ∧
          natOfDigits month.data ≤ 12 ∧
          1 ≤ natOfDigits day.data ∧ natOfDigits day.data ≤ 31
      · rw [if_pos hmd] at hv
        have hyr : normalize_year year = yr :=
          (Prod.mk.injEq _ _ _ _ ▸ Option.some.inj hv).2
        refine ⟨hyr ▸ hr.1, hyr ▸ hr.2, hyr.symm, hmd.1, hmd.2.1,
          hmd.2.2.1, hmd.2.2.2⟩
      · rw [if_neg hmd] at hv; cases hv
    · rw [if_neg hr] at hv; cases hv

/-- C2 witness: a concrete instance of `C2_amended` at the claimed example
date. -/
theorem C2_amended_witness :
    natOfDigits ("23" : String).data ≤ 50 ∧
    normalize_year "23" = natOfDigits ("23" : String).data + 2000 ∧
    extract_date_enhanced "01-01-2000" 2026 "05.09.23" = "05-09-2023" :=
  ⟨by decide, (C2_amended 2026 "05" "09" "23" (by decide)).2.1 (by decide),
   (C2_amended 2026 "05" "09" "23" (by decide)).2.2.2⟩

theorem firstMatchingLabel_eq_find (f : List String → Bool) :
    ∀ ps : List (String × List String),
      firstMatchingLabel f ps = (ps.find? (fun p => f p.2)).map Prod.fst := by
  intro ps
  induction ps with
  | nil => rfl
  | cons p ps ih =>
    by_cases h : f p.2
    · simp [firstMatchingLabel, List.find?, h]
    · simp [firstMatchingLabel, List.find?, h, ih]

/-- C4 counterexample: a text containing both the contract keyword
(`POGODBA`) and the declaration keyword (`IZJAVA`) is classified `IZJAVA` —
the declaration pattern is *first* in the source list, whereas the claimed
order (contract first, declaration last) would give `POGODBA`. -/
theorem C4_counterexample :
    detect_doc_type_worker "POGODBA IZJAVA" = "IZJAVA" ∧
    detect_doc_type_claimed "POGODBA IZJAVA" = "POGODBA" ∧
    ("IZJAVA" : String) ≠ "POGODBA" := by
  decide

/-- C4 (amended): the classifier searches the first 20 non-empty lines,
then the full text, returning `NEZNANO` when nothing matches anywhere, and
the first matching label in the fixed list order wins — but the order is
declaration (`IZJAVA`) *first*, then contract, invoice, offer, purchase
order, delivery note, decision, resolution, confirmation, notice. -/
theorem C4_amended (text : String) :
    detect_doc_type_worker text = detect_doc_type_amended_ref text ∧
    (detect_doc_type_worker text = "NEZNANO" ↔
      ∀ p ∈ DOC_TYPE_PATTERNS, kwAnySearch p.2 (docHead text) = false ∧
        kwAnySearch p.2 text = false) := by
  have hlabels : ∀ r ∈ DOC_TYPE_PATTERNS, r.1 ≠ "NEZNANO" := by decide
  have heq : detect_doc_type_worker text = detect_doc_type_amended_ref text := by
    unfold detect_doc_type_worker detect_doc_type_amended_ref
    rw [firstMatchingLabel_eq_find, firstMatchingLabel_eq_find]
    rcases h1 : DOC_TYPE_PATTERNS.find?
        (fun p => kwAnySearch p.2 (docHead text)) with _ | p
    · rw [h1]
      rcases h2 : DOC_TYPE_PATTERNS.find?
          (fun p => kwAnySearch p.2 text) with _ | q <;> rw [h2] <;> rfl
    · rw [h1]
      rfl
  refine ⟨heq, ?_⟩
  constructor
  · intro hnz
    unfold detect_doc_type_worker at hnz
    rcases h1 : DOC_TYPE_PATTERNS.find?
        (fun p => kwAnySearch p.2 (docHead text)) with _ | p
    · rw [h1] at hnz
      rcases h2 : DOC_TYPE_PATTERNS.find?
          (fun p => kwAnySearch p.2 text) with _ | q
      · intro r hr
        have hh1 := List.find?_eq_none.mp h1 r hr
        have hh2 := List.find?_eq_none.mp h2 r hr
        exact ⟨by simpa using hh1, by simpa using hh2⟩
      · exfalso
        rw [h2] at hnz
        have hq1 : q.1 = "NEZNANO" := hnz
        exact hlabels q (List.mem_of_find?_eq_some h2) hq1
    · exfalso
      rw [h1] at hnz
      have hp1 : p.1 = "NEZNANO" := hnz
      exact hlabels p (List.mem_of_find?_eq_some h1) hp1
  · intro hall
    unfold detect_doc_type_worker
    rw [List.find?_eq_none.mpr (fun p hp => by simp [(hall p hp).1]),
      List.find?_eq_none.mpr (fun p hp => by simp [(hall p hp).2])]

/-- C4 witness: a concrete instance of `C4_amended` — a text matching no
keyword is classified `NEZNANO`. -/
theorem C4_amended_witness :
    detect_doc_type_worker "brez znanih besed" = "NEZNANO" :=
  (C4_amended "brez znanih besed").2.mpr (by decide)
